import Mathlib

/-!
Verification development for the branching-conversation engine of a chat
client.  The definitions below are a shallow embedding of the TypeScript
sources:

* `removeMessage`, `insertMessage`, `updateSessionWithMessages`-level session
  transformations from `src/renderer/stores/chatStore.ts`;
* the conversation-tree adapter (`sessionToConversationTree`,
  `buildActivePathIds`, `processForks`) from the tree-adapter module;
* the incremental layout (`applyTreeLayout`) from
  `src/renderer/lib/tree-layout.ts` (the dagre full-layout pass is an
  external library and is abstracted as an oracle parameter);
* the single-slot undo (`handleUndo` in `ConversationTreeView.tsx` together
  with the snapshot store of `viewModeStore.ts`).

Message records carry only the fields the modelled operations inspect
(`id`, `role`); all other message fields are copied opaquely by the source
code and are irrelevant to the properties proved here.  JavaScript objects
used as string-keyed hashes (`messageForksHash`) are modelled as
association lists in insertion order, which is exactly the enumeration
order `Object.entries`/`Object.keys` guarantees for string keys.  The JS
`Set` used for `idsToDelete` is modelled as a `Finset String` (the code
only ever tests membership and iterates to delete hash keys, for which
order is irrelevant).
-/

/-- Message role (`system` | `user` | `assistant` | `tool`). -/
inductive Role where
  | system
  | user
  | assistant
  | tool
  deriving DecidableEq, Repr

/-- One conversation turn.  Only the fields inspected by the modelled
operations are kept; content, timestamps and status flags are copied
opaquely by every operation modelled here. -/
structure Msg where
  id : String
  role : Role
  deriving DecidableEq, Repr

instance : Inhabited Msg := ⟨⟨"", Role.user⟩⟩

/-- One branch (`forkData.lists[i]`): a stable id plus a message sequence. -/
structure Branch where
  id : String
  messages : List Msg
  deriving DecidableEq, Repr

instance : Inhabited Branch := ⟨⟨"", []⟩⟩

/-- A fork entry (`messageForksHash[forkMsgId]`): the alternative branches
and the index (`position`) of the currently active branch. -/
structure ForkData where
  lists : List Branch
  position : Nat
  deriving DecidableEq, Repr

/-- A legacy thread (`session.threads[i]`). -/
structure Thread where
  id : String
  messages : List Msg
  deriving DecidableEq, Repr

/-- The session fields touched by the modelled operations.
`messageForksHash` is `none` when the JS field is `undefined`. -/
structure Session where
  messages : List Msg
  messageForksHash : Option (List (String × ForkData))
  threads : Option (List Thread)
  deriving DecidableEq, Repr

/-- The fork entries of a session (`session.messageForksHash`, with
`undefined` read as the empty hash, as the optional-chaining reads in the
source do). -/
def forksOf (s : Session) : List (String × ForkData) :=
  s.messageForksHash.getD []

/-- The ids of a message list. -/
def msgIds (l : List Msg) : List String := l.map (·.id)

/-- Hash lookup (`hash[k]`): JS object keys are unique, so the first match
of the association list is the entry. -/
def lookupFork (forks : List (String × ForkData)) (k : String) : Option ForkData :=
  (forks.find? (fun p => p.1 == k)).map (·.2)

/-- JS `Array.prototype.findIndex`. -/
def findIndexAux (p : α → Bool) : List α → Nat → Option Nat
  | [], _ => none
  | a :: as, i => if p a then some i else findIndexAux p as (i + 1)

/-- JS `Array.prototype.findIndex`, `none` for `-1`. -/
def findIndex (p : α → Bool) (l : List α) : Option Nat :=
  findIndexAux p l 0

/-- All message ids of all branches of one fork entry. -/
def forkBranchMsgIds (fd : ForkData) : List String :=
  (fd.lists.map (fun b => msgIds b.messages)).flatten

/-- `markForDeletion` of `removeMessage`: add the id to the set and push it
on the BFS queue unless already marked. -/
def markId (st : Finset String × List String) (id : String) :
    Finset String × List String :=
  if id ∈ st.1 then st else (insert id st.1, st.2 ++ [id])

/-- Mark a whole list of ids in order. -/
def markIds (st : Finset String × List String) (ids : List String) :
    Finset String × List String :=
  ids.foldl markId st

/-- The `while (queue.length > 0)` loop of `removeMessage`: pop an id, and
if it keys a fork entry mark every message of every branch of that entry.
The source loop needs no fuel because every push marks a previously
unmarked id drawn from the finite set of branch-message ids;
`cascadeFuel` below over-approximates the number of iterations. -/
def cascadeLoop (forks : List (String × ForkData)) :
    Nat → Finset String → List String → Finset String
  | 0, marked, _ => marked
  | _ + 1, marked, [] => marked
  | fuel + 1, marked, c :: rest =>
    match lookupFork forks c with
    | none => cascadeLoop forks fuel marked rest
    | some fd =>
      let st := markIds (marked, rest) (forkBranchMsgIds fd)
      cascadeLoop forks fuel st.1 st.2

/-- Upper bound on the number of iterations of the cascade loop. -/
def cascadeFuel (forks : List (String × ForkData)) (q : List String) : Nat :=
  2 * ((forks.map (fun p => forkBranchMsgIds p.2)).flatten).length + q.length + 1

/-- Step 1.2 of `removeMessage`, inner search: first branch of the list
containing the id, returning the branch suffix starting at it. -/
def findBranchSuffix : List Branch → String → Option (List Msg)
  | [], _ => none
  | b :: bs, mid =>
    match findIndex (fun m => m.id == mid) b.messages with
    | some j => some (b.messages.drop j)
    | none => findBranchSuffix bs mid

/-- Step 1.2 of `removeMessage`: search every fork entry in hash order. -/
def findForkSuffix : List (String × ForkData) → String → Option (List Msg)
  | [], _ => none
  | (_, fd) :: rest, mid =>
    match findBranchSuffix fd.lists mid with
    | some l => some l
    | none => findForkSuffix rest mid

/-- Step 1 of `removeMessage`: locate the target and mark it together with
its linear downstream in the containing sequence.  `none` means the id was
found nowhere (already-deleted case). -/
def initialMarks (s : Session) (mid : String) :
    Option (Finset String × List String) :=
  match findIndex (fun m => m.id == mid) s.messages with
  | some i => some (markIds (∅, []) (msgIds (s.messages.drop i)))
  | none =>
    match findForkSuffix (forksOf s) mid with
    | some suffix => some (markIds (∅, []) (msgIds suffix))
    | none => none

/-- Steps 1–2 of `removeMessage`: the full `idsToDelete` set, or `none`
when the target does not exist. -/
def removalSet (s : Session) (mid : String) : Option (Finset String) :=
  (initialMarks s mid).map fun st =>
    cascadeLoop (forksOf s) (cascadeFuel (forksOf s) st.2) st.1 st.2

/-- Filter deleted messages out of one branch. -/
def filterBranch (deleted : Finset String) (b : Branch) : Branch :=
  { b with messages := b.messages.filter (fun m => decide (m.id ∉ deleted)) }

/-- Empty a branch slot after promoting its messages. -/
def emptyBranch (b : Branch) : Branch := { b with messages := [] }

/-- `newLists.findIndex((list, idx) => idx !== forkData.position &&
list.messages.length > 0)`. -/
def findNextValid (lists : List Branch) (pos : Nat) : Option Nat :=
  (lists.enum.find? (fun p => p.1 != pos && !p.2.messages.isEmpty)).map (·.1)

/-- `newLists.filter((list, idx) => list.messages.length > 0 || idx ===
newPosition)`. -/
def keepValid (lists : List Branch) (newPos : Nat) : List Branch :=
  (lists.enum.filter (fun p => !p.2.messages.isEmpty || p.1 == newPos)).map (·.2)

/-- Branch promotion inside step 3.B: when the fork point is the last
surviving message of the evolving primary list
(`!activeBranchHasContent`), append the first other branch with content to
the primary list, empty its slot and move the position onto it. -/
def promoteStep (msgs : List Msg) (newLists : List Branch) (pos fpi : Nat) :
    List Msg × List Branch × Nat :=
  if fpi < msgs.length - 1 then (msgs, newLists, pos)
  else
    match findNextValid newLists pos with
    | some nextIdx =>
      (msgs ++ (newLists.getD nextIdx default).messages,
       newLists.set nextIdx (emptyBranch (newLists.getD nextIdx default)),
       nextIdx)
    | none => (msgs, newLists, pos)

/-- The re-found `position` of a surviving fork entry: look the active
branch up by its id (`activeListId`) in the pruned branch list, falling
back to the first branch with content, then to `0`
(`Math.max(0, finalPosition)` of the source; indices are naturals here, so
the clamp is implicit). -/
def finishPos (newLists2 : List Branch) (newPosition2 : Nat) (validLists : List Branch) : Nat :=
  match (newLists2.get? newPosition2).map (·.id) with
  | some aid =>
    match findIndex (fun l => l.id == aid) validLists with
    | some v => v
    | none => (findIndex (fun l => !l.messages.isEmpty) validLists).getD 0
  | none => (findIndex (fun l => !l.messages.isEmpty) validLists).getD 0

/-- Step 3.C for one fork entry: drop empty non-active branches, prune the
entry when nothing (or only an empty active slot) remains, and re-find the
active branch by its id in the filtered branch list. -/
def finishEntry (fd : ForkData) (newLists2 : List Branch) (newPosition2 : Nat) :
    Option ForkData :=
  let validLists := keepValid newLists2 newPosition2
  if validLists.length == 0 then none
  else if validLists.length == 1 && (validLists.headD default).messages.isEmpty then none
  else some { fd with lists := validLists, position := finishPos newLists2 newPosition2 validLists }

/-- Step 3.B of `removeMessage` for a single fork entry, threading the
evolving primary list.  Returns the updated primary list and the updated
entry (`none` when the entry is pruned).  An entry whose fork point is not
in the current primary list is skipped (`continue` in the source), which
leaves the original, unfiltered entry in place. -/
def processEntry (deleted : Finset String) (msgs : List Msg)
    (forkId : String) (fd : ForkData) : List Msg × Option ForkData :=
  let newLists := fd.lists.map (filterBranch deleted)
  match findIndex (fun m => m.id == forkId) msgs with
  | none => (msgs, some fd)
  | some forkPointIndex =>
    let pr := promoteStep msgs newLists fd.position forkPointIndex
    (pr.1, finishEntry fd pr.2.1 pr.2.2)

/-- Step 3.B of `removeMessage`: fold `processEntry` over the surviving
fork entries in hash order, rebuilding the hash in the same order. -/
def stepB (deleted : Finset String) :
    List (String × ForkData) → List Msg → List Msg × List (String × ForkData)
  | [], msgs => (msgs, [])
  | (forkId, fd) :: rest, msgs =>
    let pe := processEntry deleted msgs forkId fd
    let tail := stepB deleted rest pe.1
    (tail.1,
     match pe.2 with
     | some fd' => (forkId, fd') :: tail.2
     | none => tail.2)

/-- Step 3 of `removeMessage`: physical deletion and fork-hash cleanup. -/
def applyDeletion (s : Session) (deleted : Finset String) : Session :=
  let newMessages := s.messages.filter (fun m => decide (m.id ∉ deleted))
  let newThreads := s.threads.map (List.map (fun th =>
    { th with messages := th.messages.filter (fun m => decide (m.id ∉ deleted)) }))
  match s.messageForksHash with
  | none => { s with messages := newMessages, messageForksHash := none, threads := newThreads }
  | some forks =>
    let forksA := forks.filter (fun p => decide (p.1 ∉ deleted))
    let res := stepB deleted forksA newMessages
    { s with
      messages := res.1
      messageForksHash := if res.2.isEmpty then none else some res.2
      threads := newThreads }

/-- `removeMessage` from `chatStore.ts` (the session updater): cascade
delete of a message, its linear downstream and, transitively, all branches
hanging off deleted fork points, followed by branch promotion and fork
pruning. -/
def removeMessage (s : Session) (mid : String) : Session :=
  match removalSet s mid with
  | none => s
  | some deleted => applyDeletion s deleted

/-- The target id occurs in the primary message list. -/
def InMain (s : Session) (mid : String) : Prop :=
  mid ∈ msgIds s.messages

/-- The target id occurs in some branch of some fork entry. -/
def InSomeBranch (s : Session) (mid : String) : Prop :=
  ∃ p ∈ forksOf s, ∃ b ∈ p.2.lists, mid ∈ msgIds b.messages

instance (s : Session) (mid : String) : Decidable (InMain s mid) := by
  unfold InMain; infer_instance

instance (s : Session) (mid : String) : Decidable (InSomeBranch s mid) := by
  unfold InSomeBranch; infer_instance

-- ===== basic lemmas about the search helpers =====

theorem findIndexAux_eq_none_iff (p : α → Bool) (l : List α) (i : Nat) :
    findIndexAux p l i = none ↔ ∀ a ∈ l, p a = false := by
  induction l generalizing i with
  | nil => simp [findIndexAux]
  | cons a as ih =>
    by_cases h : p a
    · simp [findIndexAux, h]
    · simp only [findIndexAux, Bool.not_eq_true] at h
      simp [findIndexAux, h, ih]

theorem findIndex_eq_none_iff (p : α → Bool) (l : List α) :
    findIndex p l = none ↔ ∀ a ∈ l, p a = false :=
  findIndexAux_eq_none_iff p l 0

theorem findIndex_id_eq_none_iff (l : List Msg) (mid : String) :
    findIndex (fun m => m.id == mid) l = none ↔ mid ∉ msgIds l := by
  rw [findIndex_eq_none_iff]
  unfold msgIds
  constructor
  · intro h hmem
    rcases List.mem_map.1 hmem with ⟨m, hm, hid⟩
    have hne := h m hm
    rw [beq_eq_false_iff_ne] at hne
    exact hne hid
  · intro h m hm
    rw [beq_eq_false_iff_ne]
    intro hid
    exact h (List.mem_map.2 ⟨m, hm, hid⟩)

theorem findBranchSuffix_eq_none_iff (bs : List Branch) (mid : String) :
    findBranchSuffix bs mid = none ↔ ∀ b ∈ bs, mid ∉ msgIds b.messages := by
  induction bs with
  | nil => simp [findBranchSuffix]
  | cons b rest ih =>
    unfold findBranchSuffix
    rcases h : findIndex (fun m => m.id == mid) b.messages with _ | j
    · have h' := (findIndex_id_eq_none_iff b.messages mid).1 h
      rw [h]
      simp only [List.mem_cons]
      constructor
      · intro hrest q hq
        rcases hq with rfl | hq
        · exact h'
        · exact (ih.1 hrest) q hq
      · intro hall
        exact ih.2 (fun q hq => hall q (Or.inr hq))
    · have hmem : mid ∈ msgIds b.messages := by
        by_contra hc
        rw [← findIndex_id_eq_none_iff] at hc
        rw [h] at hc
        exact Option.noConfusion hc
      rw [h]
      simp [hmem]

theorem findForkSuffix_eq_none_iff (forks : List (String × ForkData)) (mid : String) :
    findForkSuffix forks mid = none ↔
      ∀ p ∈ forks, ∀ b ∈ p.2.lists, mid ∉ msgIds b.messages := by
  induction forks with
  | nil => simp [findForkSuffix]
  | cons p rest ih =>
    unfold findForkSuffix
    rcases h : findBranchSuffix p.2.lists mid with _ | l
    · have h' := (findBranchSuffix_eq_none_iff p.2.lists mid).1 h
      simp only [List.mem_cons]
      constructor
      · intro hrest q hq
        rcases hq with rfl | hq
        · exact h'
        · exact (ih.1 hrest) q hq
      · intro hall
        exact ih.2 (fun q hq => hall q (Or.inr hq))
    · have : ¬ ∀ b ∈ p.2.lists, mid ∉ msgIds b.messages := by
        intro hall
        rw [← findBranchSuffix_eq_none_iff] at hall
        rw [h] at hall
        exact Option.noConfusion hall
      simp [this]

-- ===== C4 =====

/-- C4: `removeMessage` is idempotent on already-deleted ids — for every
session and id present neither in the primary message list nor in any
branch of any fork entry, `removeMessage` returns the session unchanged
(no error is possible, the function is total); in particular a second call
with the same already-deleted id is a no-op that does not mutate the
conversation. -/
theorem C4_removeMessage_absent_id_noop (s : Session) (mid : String)
    (h1 : ¬ InMain s mid) (h2 : ¬ InSomeBranch s mid) :
    removeMessage s mid = s := by
  have hmain : findIndex (fun m => m.id == mid) s.messages = none := by
    rw [findIndex_id_eq_none_iff]
    exact h1
  have hfork : findForkSuffix (forksOf s) mid = none := by
    rw [findForkSuffix_eq_none_iff]
    intro p hp b hb hmem
    exact h2 ⟨p, hp, b, hb, hmem⟩
  unfold removeMessage removalSet initialMarks
  rw [hmain, hfork]
  rfl

def exC4 : Session :=
  ⟨[⟨"s", Role.system⟩, ⟨"u1", Role.user⟩],
   some [("u1", ⟨[⟨"l1", [⟨"a1", Role.assistant⟩]⟩, ⟨"l2", []⟩], 1⟩)], none⟩

/-- Witness for C4 at a concrete session and an id deleted from it. -/
theorem C4_removeMessage_absent_id_noop_witness :
    ¬ InMain exC4 "zz" ∧ ¬ InSomeBranch exC4 "zz" ∧ removeMessage exC4 "zz" = exC4 :=
  ⟨by decide, by decide, C4_removeMessage_absent_id_noop exC4 "zz" (by decide) (by decide)⟩

-- ===== C1 =====

/-- A session whose fork entry `"b"` is keyed by a message that lives
inside a branch of the fork entry `"a"` (a nested fork, explicitly allowed
by the data model).  The message `"x"` lives in a branch of entry `"b"`. -/
def exNested : Session :=
  ⟨[⟨"a", Role.system⟩, ⟨"d", Role.user⟩],
   some [("a", ⟨[⟨"l1", [⟨"b", Role.user⟩, ⟨"c", Role.assistant⟩]⟩, ⟨"l2", []⟩], 1⟩),
         ("b", ⟨[⟨"m1", [⟨"x", Role.user⟩]⟩, ⟨"m2", [⟨"y", Role.user⟩]⟩], 0⟩)],
   none⟩

/-- C1 (code bug): the claim requires `removeMessage` to delete the
located message for every id present in some branch of some fork entry.
For `"x"`, which lives in branch `"m1"` of fork entry `"b"` — an entry
whose fork-point message `"b"` lies inside a branch of entry `"a"`, not in
the primary list — the fork-hash cleanup skips entry `"b"` (the
`forkPointIndex < 0` `continue` in the source), so the marked message is
never physically removed: the call returns the session completely
unchanged even though the target id is present in a branch. -/
theorem C1_removeMessage_nested_branch_target_not_deleted :
    InSomeBranch exNested "x" ∧ removeMessage exNested "x" = exNested := by
  constructor
  · decide
  · decide

-- ===== cascade-set lemmas =====

/-- All branch-message ids of a fork hash. -/
def forksBranchIds (forks : List (String × ForkData)) : List String :=
  (forks.map (fun p => forkBranchMsgIds p.2)).flatten

theorem markId_fst (st : Finset String × List String) (id : String) :
    (markId st id).1 = insert id st.1 := by
  unfold markId
  split
  · rw [Finset.insert_eq_self.2 ‹_›]
  · rfl

theorem markIds_fst (ids : List String) (st : Finset String × List String) :
    (markIds st ids).1 = st.1 ∪ ids.toFinset := by
  induction ids generalizing st with
  | nil => simp [markIds]
  | cons a as ih =>
    show (markIds (markId st a) as).1 = _
    rw [ih, markId_fst]
    ext x
    simp only [Finset.mem_union, Finset.mem_insert, List.mem_toFinset, List.mem_cons]
    tauto

theorem lookupFork_mem {forks : List (String × ForkData)} {k : String} {fd : ForkData}
    (h : lookupFork forks k = some fd) : (k, fd) ∈ forks := by
  unfold lookupFork at h
  rcases hf : forks.find? (fun p => p.1 == k) with _ | p
  · rw [hf] at h; exact Option.noConfusion h
  · rw [hf] at h
    have hp : p.2 = fd := by
      simpa using h
    have hmem := List.mem_of_find?_eq_some hf
    have hkey : p.1 = k := by
      have := List.find?_some hf
      simpa using this
    have : p = (k, fd) := by
      cases p; simp_all
    rw [← this]; exact hmem

theorem forkBranchMsgIds_subset {forks : List (String × ForkData)} {k : String}
    {fd : ForkData} (h : (k, fd) ∈ forks) :
    ∀ x ∈ forkBranchMsgIds fd, x ∈ forksBranchIds forks := by
  intro x hx
  unfold forksBranchIds
  rw [List.mem_flatten]
  exact ⟨forkBranchMsgIds fd, List.mem_map.2 ⟨(k, fd), h, rfl⟩, hx⟩

theorem cascadeLoop_mono (forks : List (String × ForkData)) (fuel : Nat) :
    ∀ marked q, marked ⊆ cascadeLoop forks fuel marked q := by
  induction fuel with
  | zero => intro marked q; exact Finset.Subset.refl _
  | succ fuel ih =>
    intro marked q
    cases q with
    | nil => exact Finset.Subset.refl _
    | cons c rest =>
      unfold cascadeLoop
      rcases h : lookupFork forks c with _ | fd
      · exact ih marked rest
      · refine Finset.Subset.trans ?_ (ih _ _)
        rw [markIds_fst]
        exact Finset.subset_union_left

theorem cascadeLoop_subset (forks : List (String × ForkData)) (fuel : Nat) :
    ∀ marked q,
      cascadeLoop forks fuel marked q ⊆ marked ∪ (forksBranchIds forks).toFinset := by
  induction fuel with
  | zero => intro marked q; exact Finset.subset_union_left
  | succ fuel ih =>
    intro marked q
    cases q with
    | nil => exact Finset.subset_union_left
    | cons c rest =>
      unfold cascadeLoop
      rcases h : lookupFork forks c with _ | fd
      · exact ih marked rest
      · refine Finset.Subset.trans (ih _ _) ?_
        rw [markIds_fst]
        intro x hx
        rcases Finset.mem_union.1 hx with hx | hx
        · rcases Finset.mem_union.1 hx with hx | hx
          · exact Finset.mem_union_left _ hx
          · refine Finset.mem_union_right _ ?_
            rw [List.mem_toFinset] at hx ⊢
            exact forkBranchMsgIds_subset (lookupFork_mem h) x hx
        · exact Finset.mem_union_right _ hx

-- ===== step-3 append lemmas =====

theorem findNextValid_some {l : List Branch} {pos i : Nat}
    (h : findNextValid l pos = some i) :
    ∃ b, l.get? i = some b ∧ i ≠ pos ∧ b.messages.isEmpty = false := by
  unfold findNextValid at h
  rcases hf : l.enum.find? (fun p => p.1 != pos && !p.2.messages.isEmpty) with _ | q
  · rw [hf] at h; exact Option.noConfusion h
  · rw [hf] at h
    have hq1 : q.1 = i := by simpa using h
    have hpred := List.find?_some hf
    have hmem := List.mem_of_find?_eq_some hf
    rw [List.mem_enum_iff_getElem?] at hmem
    rw [Bool.and_eq_true, bne_iff_ne, Bool.not_eq_true'] at hpred
    refine ⟨q.2, ?_, ?_, hpred.2⟩
    · rw [← hq1, List.get?_eq_getElem?]; exact hmem
    · rw [← hq1]; exact hpred.1

theorem promoteStep_fst (msgs : List Msg) (nl : List Branch) (pos fpi : Nat) :
    ∃ tail, (promoteStep msgs nl pos fpi).1 = msgs ++ tail ∧
      ∀ m ∈ tail, ∃ b ∈ nl, m ∈ b.messages := by
  unfold promoteStep
  by_cases h : fpi < msgs.length - 1
  · exact ⟨[], by simp [h], by simp⟩
  · simp only [h, if_false]
    rcases hnv : findNextValid nl pos with _ | i
    · exact ⟨[], by simp, by simp⟩
    · rcases findNextValid_some hnv with ⟨b, hget, _, _⟩
      have hge : nl[i]? = some b := by
        rw [← List.get?_eq_getElem?]; exact hget
      refine ⟨b.messages, by simp [List.getD, hge], ?_⟩
      intro m hm
      exact ⟨b, List.get?_mem hget, hm⟩

theorem processEntry_fst (deleted : Finset String) (msgs : List Msg)
    (forkId : String) (fd : ForkData) :
    ∃ tail, (processEntry deleted msgs forkId fd).1 = msgs ++ tail ∧
      ∀ m ∈ tail, ∃ b ∈ fd.lists, m ∈ b.messages := by
  unfold processEntry
  rcases hfi : findIndex (fun m => m.id == forkId) msgs with _ | fpi
  · simp only [hfi]
    exact ⟨[], by simp, by simp⟩
  · simp only [hfi]
    rcases promoteStep_fst msgs (fd.lists.map (filterBranch deleted)) fd.position fpi with
      ⟨t, ht, hmem⟩
    refine ⟨t, ht, ?_⟩
    intro m hm
    rcases hmem m hm with ⟨b', hb', hmb⟩
    rcases List.mem_map.1 hb' with ⟨b, hb, hfb⟩
    refine ⟨b, hb, ?_⟩
    rw [← hfb] at hmb
    unfold filterBranch at hmb
    simpa using List.mem_of_mem_filter hmb

theorem stepB_fst (deleted : Finset String) (forks : List (String × ForkData)) :
    ∀ msgs : List Msg,
      ∃ tail, (stepB deleted forks msgs).1 = msgs ++ tail ∧
        ∀ m ∈ tail, ∃ p ∈ forks, ∃ b ∈ p.2.lists, m ∈ b.messages := by
  induction forks with
  | nil => intro msgs; exact ⟨[], by simp [stepB], by simp⟩
  | cons q rest ih =>
    intro msgs
    obtain ⟨q1, q2⟩ := q
    rcases processEntry_fst deleted msgs q1 q2 with ⟨t1, ht1, hm1⟩
    rcases ih ((processEntry deleted msgs q1 q2).1) with ⟨t2, ht2, hm2⟩
    refine ⟨t1 ++ t2, ?_, ?_⟩
    · show (stepB deleted rest ((processEntry deleted msgs q1 q2).1)).1 = _
      rw [ht2, ht1, List.append_assoc]
    · intro m hm
      rcases List.mem_append.1 hm with hm | hm
      · exact ⟨(q1, q2), List.mem_cons_self _ _, hm1 m hm⟩
      · rcases hm2 m hm with ⟨p, hp, hb⟩
        exact ⟨p, List.mem_cons_of_mem _ hp, hb⟩

-- ===== well-formedness of a session =====

/-- Data-model invariant 1: every message id is unique across the primary
sequence and all branches of all fork entries. -/
def UniqueIds (s : Session) : Prop :=
  (msgIds s.messages ++ forksBranchIds (forksOf s)).Nodup

instance (s : Session) : Decidable (UniqueIds s) := by
  unfold UniqueIds; infer_instance

/-- The number of branches of a fork entry that are non-empty or are the
active slot (the count the pruning rule of the spec is stated over). -/
def countGood (fd : ForkData) : Nat :=
  (fd.lists.enum.filter (fun p => !p.2.messages.isEmpty || p.1 == fd.position)).length

/-- Structural well-formedness of a session, mirroring the data-model
invariants of the spec: unique ids; unique fork keys; per entry: unique
branch ids, in-range active position, at least two branches counting the
active slot, and — for fork points living in the primary sequence — an
empty stored slot for the active branch (its messages live in the primary
sequence). -/
def Wf (s : Session) : Prop :=
  UniqueIds s
  ∧ ((forksOf s).map (·.1)).Nodup
  ∧ ∀ p ∈ forksOf s,
      (p.2.lists.map (·.id)).Nodup
      ∧ p.2.position < p.2.lists.length
      ∧ 2 ≤ countGood p.2
      ∧ (p.1 ∈ msgIds s.messages →
          ∃ slot, p.2.lists.get? p.2.position = some slot ∧ slot.messages = [])

instance (s : Session) : Decidable (Wf s) := by
  unfold Wf; infer_instance

-- ===== C9 =====

/-- C9 (implicit frame property): with unique message ids, deleting the
message found at index `i` of the primary list leaves the messages at
indices `0..i-1` unchanged, in order, as a prefix of the resulting primary
list; everything appended after that prefix comes from stored fork
branches (branch promotion), so nothing before the target and nothing
outside deleted branches is removed from the primary list. -/
theorem C9_removeMessage_preserves_prefix (s : Session) (mid : String) (i : Nat)
    (hu : UniqueIds s)
    (hfind : findIndex (fun m => m.id == mid) s.messages = some i) :
    ∃ tail, (removeMessage s mid).messages = s.messages.take i ++ tail ∧
      ∀ m ∈ tail, ∃ p ∈ forksOf s, ∃ b ∈ p.2.lists, m ∈ b.messages := by
  classical
  set suffixIds := msgIds (s.messages.drop i) with hsuf
  set st0 := markIds (∅, []) suffixIds with hst0
  set D := cascadeLoop (forksOf s) (cascadeFuel (forksOf s) st0.2) st0.1 st0.2 with hD
  have hrs : removalSet s mid = some D := by
    unfold removalSet initialMarks
    rw [hfind]
    rfl
  have hsub1 : ∀ x ∈ suffixIds, x ∈ D := by
    intro x hx
    have h1 : x ∈ st0.1 := by
      rw [hst0, markIds_fst]
      simp [hx]
    exact cascadeLoop_mono _ _ _ _ h1
  have hsub2 : ∀ x ∈ D, x ∈ suffixIds ∨ x ∈ forksBranchIds (forksOf s) := by
    intro x hx
    have hmem := cascadeLoop_subset (forksOf s) _ st0.1 st0.2 hx
    rcases Finset.mem_union.1 hmem with h | h
    · left
      rw [hst0, markIds_fst] at h
      simpa using h
    · right
      exact List.mem_toFinset.1 h
  -- decompose the uniqueness hypothesis
  have hmain_nodup : (msgIds s.messages).Nodup := (List.nodup_append.1 hu).1
  have hdisj : ∀ x ∈ msgIds s.messages, x ∉ forksBranchIds (forksOf s) := by
    intro x hx
    exact (List.nodup_append.1 hu).2.2 hx
  have hsplit : msgIds (s.messages.take i) ++ msgIds (s.messages.drop i) = msgIds s.messages := by
    unfold msgIds
    rw [← List.map_append, List.take_append_drop]
  have htd_disj : ∀ x ∈ msgIds (s.messages.take i), x ∉ suffixIds := by
    intro x hx
    have hnodup2 : (msgIds (s.messages.take i) ++ msgIds (s.messages.drop i)).Nodup := by
      rw [hsplit]; exact hmain_nodup
    exact fun hx2 => (List.disjoint_of_nodup_append hnodup2) hx hx2
  have hprefix_notD : ∀ m ∈ s.messages.take i, m.id ∉ D := by
    intro m hm hmD
    have hid_take : m.id ∈ msgIds (s.messages.take i) :=
      List.mem_map.2 ⟨m, hm, rfl⟩
    have hid_main : m.id ∈ msgIds s.messages := by
      rw [← hsplit]
      exact List.mem_append.2 (Or.inl hid_take)
    rcases hsub2 _ hmD with h | h
    · exact htd_disj _ hid_take h
    · exact hdisj _ hid_main h
  have hfilter : s.messages.filter (fun m => decide (m.id ∉ D)) = s.messages.take i := by
    conv_lhs => rw [← List.take_append_drop i s.messages]
    rw [List.filter_append]
    have h1 : (s.messages.take i).filter (fun m => decide (m.id ∉ D)) = s.messages.take i := by
      rw [List.filter_eq_self]
      intro m hm
      simpa using hprefix_notD m hm
    have h2 : (s.messages.drop i).filter (fun m => decide (m.id ∉ D)) = [] := by
      rw [List.filter_eq_nil_iff]
      intro m hm
      have : m.id ∈ suffixIds := List.mem_map.2 ⟨m, hm, rfl⟩
      simpa using hsub1 _ this
    rw [h1, h2, List.append_nil]
  -- now compute removeMessage
  unfold removeMessage
  rw [hrs]
  unfold applyDeletion
  rcases hh : s.messageForksHash with _ | forks
  · refine ⟨[], ?_, by simp⟩
    simp only [hfilter, List.append_nil]
  · have hforksOf : forksOf s = forks := by
      unfold forksOf; rw [hh]; rfl
    simp only []
    rcases stepB_fst D (forks.filter (fun p => decide (p.1 ∉ D)))
        (s.messages.filter (fun m => decide (m.id ∉ D))) with ⟨t, ht, hm⟩
    refine ⟨t, ?_, ?_⟩
    · rw [ht, hfilter]
    · intro m hmt
      rcases hm m hmt with ⟨p, hp, hb⟩
      exact ⟨p, by rw [hforksOf]; exact List.mem_of_mem_filter hp, hb⟩

def exC9 : Session :=
  ⟨[⟨"s", Role.system⟩, ⟨"u1", Role.user⟩, ⟨"u2", Role.user⟩, ⟨"a2", Role.assistant⟩],
   some [("u1", ⟨[⟨"l1", [⟨"a1", Role.assistant⟩]⟩, ⟨"l2", []⟩], 1⟩)], none⟩

/-- Witness for C9: deleting `"u2"` (index 2) from a session with a fork
at `"u1"`. -/
theorem C9_removeMessage_preserves_prefix_witness :
    ∃ tail, (removeMessage exC9 "u2").messages = exC9.messages.take 2 ++ tail ∧
      ∀ m ∈ tail, ∃ p ∈ forksOf exC9, ∃ b ∈ p.2.lists, m ∈ b.messages :=
  C9_removeMessage_preserves_prefix exC9 "u2" 2 (by decide) (by decide)

-- ===== index/enum helper lemmas =====

theorem findIndexAux_some_spec {p : α → Bool} :
    ∀ {l : List α} {i j : Nat}, findIndexAux p l i = some j →
      ∃ k, j = i + k ∧ (∃ a, l.get? k = some a ∧ p a = true) ∧
        ∀ k' a', k' < k → l.get? k' = some a' → p a' = false := by
  intro l
  induction l with
  | nil => intro i j h; exact absurd h (by simp [findIndexAux])
  | cons a as ih =>
    intro i j h
    unfold findIndexAux at h
    by_cases hp : p a
    · rw [if_pos hp] at h
      have hij : i = j := by simpa using h
      refine ⟨0, by omega, ⟨a, rfl, hp⟩, ?_⟩
      intro k' a' hk' _
      exact absurd hk' (Nat.not_lt_zero k')
    · rw [if_neg hp] at h
      rcases ih h with ⟨k, hk, ⟨b, hb, hpb⟩, hfirst⟩
      refine ⟨k + 1, by omega, ⟨b, by simpa using hb, hpb⟩, ?_⟩
      intro k' a' hk' ha'
      cases k' with
      | zero =>
        have haa : a = a' := by simpa using ha'
        subst haa
        exact Bool.eq_false_iff.2 hp
      | succ k'' =>
        exact hfirst k'' a' (by omega) (by simpa using ha')

theorem findIndex_some_spec {p : α → Bool} {l : List α} {j : Nat}
    (h : findIndex p l = some j) :
    (∃ a, l.get? j = some a ∧ p a = true) ∧
      ∀ k' a', k' < j → l.get? k' = some a' → p a' = false := by
  rcases findIndexAux_some_spec h with ⟨k, hk, ha, hfirst⟩
  have : j = k := by omega
  subst this
  exact ⟨ha, hfirst⟩

theorem findIndex_isSome_of_mem {p : α → Bool} {l : List α} {a : α}
    (ha : a ∈ l) (hp : p a = true) : findIndex p l ≠ none := by
  intro h
  rw [findIndex_eq_none_iff] at h
  rw [h a ha] at hp
  exact Bool.noConfusion hp

theorem enumFrom_map_snd (l : List α) : ∀ n, (l.enumFrom n).map Prod.snd = l := by
  induction l with
  | nil => intro n; rfl
  | cons a as ih =>
    intro n
    show a :: (as.enumFrom (n + 1)).map Prod.snd = a :: as
    rw [ih]

theorem enum_map_snd' (l : List α) : l.enum.map Prod.snd = l :=
  enumFrom_map_snd l 0

theorem nodup_ids_index_unique {V : List Branch}
    (h : (V.map (·.id)).Nodup) {i j : Nat} {b c : Branch}
    (hi : V.get? i = some b) (hj : V.get? j = some c) (hid : b.id = c.id) :
    i = j := by
  have hmi : (V.map (·.id)).get? i = some b.id := by
    rw [List.get?_eq_getElem?, List.getElem?_map, ← List.get?_eq_getElem?, hi]; rfl
  have hmj : (V.map (·.id)).get? j = some c.id := by
    rw [List.get?_eq_getElem?, List.getElem?_map, ← List.get?_eq_getElem?, hj]; rfl
  by_contra hne
  rcases Nat.lt_or_ge i j with hlt | hge
  · exact (List.nodup_iff_get?_ne_get?.1 h i j hlt
      (by rw [List.length_map]; exact (List.get?_eq_some.1 hj).choose)) (by rw [hmi, hmj, hid])
  · have hlt : j < i := by omega
    exact (List.nodup_iff_get?_ne_get?.1 h j i hlt
      (by rw [List.length_map]; exact (List.get?_eq_some.1 hi).choose)) (by rw [hmi, hmj, hid])

theorem keepValid_sublist (nl : List Branch) (np : Nat) :
    (keepValid nl np).Sublist nl := by
  unfold keepValid
  have h1 : (nl.enum.filter (fun p => !p.2.messages.isEmpty || p.1 == np)).Sublist nl.enum :=
    List.filter_sublist _
  have h2 := h1.map Prod.snd
  rw [enum_map_snd'] at h2
  exact h2

theorem mem_keepValid {nl : List Branch} {np : Nat} {b : Branch}
    (h : b ∈ keepValid nl np) :
    ∃ i, nl.get? i = some b ∧ (b.messages.isEmpty = false ∨ i = np) := by
  unfold keepValid at h
  rcases List.mem_map.1 h with ⟨q, hq, hq2⟩
  have hmem := List.mem_of_mem_filter hq
  have hpred := List.of_mem_filter hq
  rw [List.mem_enum_iff_getElem?] at hmem
  refine ⟨q.1, ?_, ?_⟩
  · rw [List.get?_eq_getElem?, hmem, hq2]
  · rw [Bool.or_eq_true, Bool.not_eq_true', beq_iff_eq] at hpred
    rcases hpred with hp | hp
    · left; rw [← hq2]; exact hp
    · right; exact hp

theorem map_ids_set (nl : List Branch) (i : Nat) (b c : Branch)
    (hc : nl.get? i = some c) (hid : b.id = c.id) :
    (nl.set i b).map (·.id) = nl.map (·.id) := by
  induction nl generalizing i with
  | nil => simp at hc
  | cons x xs ih =>
    cases i with
    | zero =>
      have hcx : x = c := by simpa using hc
      subst hcx
      simp [hid]
    | succ n =>
      have := ih n (by simpa using hc)
      simpa using this

-- ===== fork-entry pruning analysis (for C3) =====

theorem countGood_eq_length {V : List Branch} {fp : Nat}
    (h : ∀ q ∈ V.enum, (!q.2.messages.isEmpty || q.1 == fp) = true) :
    countGood ⟨V, fp⟩ = V.length := by
  unfold countGood
  rw [List.filter_eq_self.2 h]
  exact List.enum_length

theorem finishPos_eq {nl2 : List Branch} {np2 : Nat} {V : List Branch} {slot2 : Branch} {v : Nat}
    (hsome : nl2.get? np2 = some slot2)
    (hfi : findIndex (fun l => l.id == slot2.id) V = some v) :
    finishPos nl2 np2 V = v := by
  unfold finishPos
  rw [hsome]
  show (match findIndex (fun l => l.id == slot2.id) V with
        | some w => w
        | none => (findIndex (fun l => !l.messages.isEmpty) V).getD 0) = v
  rw [hfi]

theorem finishEntry_good {fd : ForkData} {nl2 : List Branch} {np2 : Nat} {fd' : ForkData}
    (hids : (nl2.map (·.id)).Nodup)
    {slot2 : Branch} (hsome : nl2.get? np2 = some slot2)
    (h : finishEntry fd nl2 np2 = some fd') :
    2 ≤ countGood fd' ∨ ∃ b, fd'.lists = [b] ∧ b.messages ≠ [] := by
  unfold finishEntry at h
  by_cases h0 : (((keepValid nl2 np2).length == 0) : Bool) = true
  · rw [if_pos h0] at h; exact absurd h (by simp)
  · rw [if_neg h0] at h
    by_cases h1 :
        (((keepValid nl2 np2).length == 1 &&
          ((keepValid nl2 np2).headD default).messages.isEmpty) : Bool) = true
    · rw [if_pos h1] at h; exact absurd h (by simp)
    · rw [if_neg h1] at h
      have hfd' : fd' = ⟨keepValid nl2 np2, finishPos nl2 np2 (keepValid nl2 np2)⟩ :=
        (Option.some.inj h).symm
      have hV0 : (keepValid nl2 np2).length ≠ 0 := by
        intro hc; exact h0 (by simp [hc])
      have hVids : ((keepValid nl2 np2).map (·.id)).Nodup :=
        List.Nodup.sublist ((keepValid_sublist nl2 np2).map (·.id)) hids
      rcases Nat.lt_or_ge (keepValid nl2 np2).length 2 with hlt | hge
      · -- exactly one branch left; it must be non-empty
        have hlen1 : (keepValid nl2 np2).length = 1 := by omega
        rcases List.length_eq_one.1 hlen1 with ⟨b, hb⟩
        right
        refine ⟨b, by rw [hfd']; exact hb, ?_⟩
        intro hbm
        apply h1
        rw [hlen1, hb]
        simp [hbm]
      · -- at least two branches left: every one of them is counted
        left
        rw [hfd']
        have hall : ∀ q ∈ (keepValid nl2 np2).enum,
            (!q.2.messages.isEmpty || q.1 == finishPos nl2 np2 (keepValid nl2 np2)) = true := by
          intro q hq
          by_cases hbe : q.2.messages.isEmpty = true
          · -- an empty survivor is the active slot; its index is re-found by id
            have hqget : (keepValid nl2 np2).get? q.1 = some q.2 := by
              rw [List.get?_eq_getElem?]
              exact List.mem_enum_iff_getElem?.1 hq
            have hqmem : q.2 ∈ keepValid nl2 np2 := List.get?_mem hqget
            rcases mem_keepValid hqmem with ⟨i0, hnl, hdis⟩
            rcases hdis with hne | hi0
            · rw [hbe] at hne; exact absurd hne (by simp)
            · rw [hi0] at hnl
              have hq2slot : q.2 = slot2 := by
                have : some q.2 = some slot2 := by rw [← hnl, hsome]
                exact Option.some.inj this
              have hsomefi : findIndex (fun l => l.id == slot2.id) (keepValid nl2 np2) ≠ none :=
                findIndex_isSome_of_mem hqmem (by rw [hq2slot]; exact beq_self_eq_true _)
              rcases hfi : findIndex (fun l => l.id == slot2.id) (keepValid nl2 np2) with _ | v
              · exact absurd hfi hsomefi
              · have hfp : finishPos nl2 np2 (keepValid nl2 np2) = v := finishPos_eq hsome hfi
                rcases (findIndex_some_spec hfi).1 with ⟨c, hcget, hcid⟩
                have hcid' : c.id = q.2.id := by
                  rw [hq2slot]
                  exact beq_iff_eq.1 hcid
                have hv : v = q.1 := nodup_ids_index_unique hVids hcget hqget hcid'
                simp [hfp, hv]
          · have hbe' : q.2.messages.isEmpty = false := by
              revert hbe; cases q.2.messages.isEmpty <;> simp
            simp [hbe']
        have := countGood_eq_length hall
        have hcg : countGood ⟨keepValid nl2 np2, finishPos nl2 np2 (keepValid nl2 np2)⟩ =
            (keepValid nl2 np2).length := this
        calc 2 ≤ (keepValid nl2 np2).length := hge
        _ = _ := by rw [← hcg]

theorem map_filterBranch_ids (deleted : Finset String) (ls : List Branch) :
    (ls.map (filterBranch deleted)).map (·.id) = ls.map (·.id) := by
  rw [List.map_map]
  exact List.map_congr_left (fun b _ => rfl)

theorem processEntry_good {deleted : Finset String} {msgs : List Msg} {k : String}
    {fd fd' : ForkData}
    (hids : (fd.lists.map (·.id)).Nodup)
    (hpos : fd.position < fd.lists.length)
    (hcg : 2 ≤ countGood fd)
    (h : (processEntry deleted msgs k fd).2 = some fd') :
    2 ≤ countGood fd' ∨ ∃ b, fd'.lists = [b] ∧ b.messages ≠ [] := by
  unfold processEntry at h
  rcases hfi : findIndex (fun m => m.id == k) msgs with _ | fpi
  · rw [hfi] at h
    have h' : some fd = some fd' := h
    rw [← Option.some.inj h']
    exact Or.inl hcg
  · rw [hfi] at h
    have h' : finishEntry fd
        (promoteStep msgs (fd.lists.map (filterBranch deleted)) fd.position fpi).2.1
        (promoteStep msgs (fd.lists.map (filterBranch deleted)) fd.position fpi).2.2 =
        some fd' := h
    have hmapid := map_filterBranch_ids deleted fd.lists
    have hids2 : ((fd.lists.map (filterBranch deleted)).map (·.id)).Nodup := by
      rw [hmapid]; exact hids
    have hlen : (fd.lists.map (filterBranch deleted)).length = fd.lists.length :=
      List.length_map _ _
    by_cases hact : fpi < msgs.length - 1
    · have hpr : promoteStep msgs (fd.lists.map (filterBranch deleted)) fd.position fpi =
          (msgs, fd.lists.map (filterBranch deleted), fd.position) := by
        unfold promoteStep; rw [if_pos hact]
      rw [hpr] at h'
      have hlt : fd.position < (fd.lists.map (filterBranch deleted)).length := by
        rw [hlen]; exact hpos
      exact finishEntry_good hids2 (List.get?_eq_get hlt) h'
    · rcases hnv : findNextValid (fd.lists.map (filterBranch deleted)) fd.position with _ | nextIdx
      · have hpr : promoteStep msgs (fd.lists.map (filterBranch deleted)) fd.position fpi =
            (msgs, fd.lists.map (filterBranch deleted), fd.position) := by
          unfold promoteStep; rw [if_neg hact, hnv]
        rw [hpr] at h'
        have hlt : fd.position < (fd.lists.map (filterBranch deleted)).length := by
          rw [hlen]; exact hpos
        exact finishEntry_good hids2 (List.get?_eq_get hlt) h'
      · rcases findNextValid_some hnv with ⟨b, hbget, hbne, hbemp⟩
        have hge : (fd.lists.map (filterBranch deleted))[nextIdx]? = some b := by
          rw [← List.get?_eq_getElem?]; exact hbget
        have hgetD : (fd.lists.map (filterBranch deleted)).getD nextIdx default = b := by
          simp [List.getD, hge]
        have hpr : promoteStep msgs (fd.lists.map (filterBranch deleted)) fd.position fpi =
            (msgs ++ b.messages,
             (fd.lists.map (filterBranch deleted)).set nextIdx (emptyBranch b),
             nextIdx) := by
          unfold promoteStep
          rw [if_neg hact]
          simp only [hnv]
          rw [hgetD]
        rw [hpr] at h'
        have hids3 : (((fd.lists.map (filterBranch deleted)).set nextIdx
            (emptyBranch b)).map (·.id)).Nodup := by
          rw [map_ids_set _ _ (emptyBranch b) b hbget rfl]; exact hids2
        have hlt : nextIdx < (fd.lists.map (filterBranch deleted)).length :=
          (List.get?_eq_some.1 hbget).choose
        have hslot : ((fd.lists.map (filterBranch deleted)).set nextIdx
            (emptyBranch b)).get? nextIdx = some (emptyBranch b) := by
          rw [List.get?_eq_getElem?]
          exact List.getElem?_set_eq_of_lt (emptyBranch b) hlt
        exact finishEntry_good hids3 hslot h'

theorem stepB_snd_mem {deleted : Finset String} :
    ∀ {forks : List (String × ForkData)} {msgs : List Msg} {k : String} {fd' : ForkData},
      (k, fd') ∈ (stepB deleted forks msgs).2 →
      ∃ fd msgs', (k, fd) ∈ forks ∧ (processEntry deleted msgs' k fd).2 = some fd' := by
  intro forks
  induction forks with
  | nil => intro msgs k fd' h; simp [stepB] at h
  | cons q rest ih =>
    intro msgs k fd' h
    obtain ⟨q1, q2⟩ := q
    have hstep : (stepB deleted ((q1, q2) :: rest) msgs).2 =
        (match (processEntry deleted msgs q1 q2).2 with
         | some fd'' => (q1, fd'') :: (stepB deleted rest (processEntry deleted msgs q1 q2).1).2
         | none => (stepB deleted rest (processEntry deleted msgs q1 q2).1).2) := rfl
    rw [hstep] at h
    rcases hpe : (processEntry deleted msgs q1 q2).2 with _ | fd''
    · rw [hpe] at h
      rcases ih h with ⟨fd, msgs', hm, hp⟩
      exact ⟨fd, msgs', List.mem_cons_of_mem _ hm, hp⟩
    · rw [hpe] at h
      rcases List.mem_cons.1 h with heq | h2
      · have hk : k = q1 := congrArg Prod.fst heq
        have hfd : fd' = fd'' := congrArg Prod.snd heq
        subst hk
        refine ⟨q2, msgs, List.mem_cons_self _ _, ?_⟩
        rw [hpe, hfd]
      · rcases ih h2 with ⟨fd, msgs', hm, hp⟩
        exact ⟨fd, msgs', List.mem_cons_of_mem _ hm, hp⟩

-- ===== C3 =====

/-- A well-formed session on which `removeMessage` leaves a fork entry
with a single non-empty branch: the nested fork entry `"k"` is promoted
into the primary list while the deletion of `"t"` empties its second
branch, and the pruning rule keeps the surviving single-branch entry
because that branch is non-empty. -/
def exC3 : Session :=
  ⟨[⟨"a", Role.system⟩],
   some [("a", ⟨[⟨"p", [⟨"k", Role.user⟩]⟩, ⟨"q", []⟩], 1⟩),
         ("k", ⟨[⟨"s0", [⟨"m1", Role.assistant⟩]⟩, ⟨"s1", [⟨"t", Role.user⟩]⟩], 0⟩)],
   none⟩

/-- C3 counterexample: on the well-formed session `exC3`, deleting `"t"`
leaves the fork entry `"k"` in the hash with exactly one (non-empty)
branch — fewer than 2 branches even counting an active slot — instead of
dropping it, so the claimed invariant is false. -/
theorem C3_counterexample :
    Wf exC3 ∧
    (removeMessage exC3 "t").messageForksHash =
      some [("k", ⟨[⟨"s0", [⟨"m1", Role.assistant⟩]⟩], 0⟩)] ∧
    countGood ⟨[⟨"s0", [⟨"m1", Role.assistant⟩]⟩], 0⟩ = 1 := by
  refine ⟨by decide, by decide, by decide⟩

/-- C3 (amended): after `removeMessage` on a well-formed session, every
fork entry remaining in the hash either has at least 2 branches counting
the still-active (possibly empty) slot — with every other kept branch
non-empty — or is a single-branch entry whose branch is non-empty (the
code prunes only entries that are empty or reduced to one empty branch;
it keeps single-non-empty-branch entries, and entries whose fork point is
not in the evolving primary list are left untouched). -/
theorem applyDeletion_forksOf (s : Session) (D : Finset String) :
    forksOf (applyDeletion s D) =
      (stepB D ((forksOf s).filter (fun p => decide (p.1 ∉ D)))
        (s.messages.filter (fun m => decide (m.id ∉ D)))).2 := by
  obtain ⟨msgs, hashOpt, ths⟩ := s
  cases hashOpt with
  | none => rfl
  | some forks =>
    show (if (stepB D (forks.filter (fun p => decide (p.1 ∉ D)))
            (msgs.filter (fun m => decide (m.id ∉ D)))).2.isEmpty = true then
          (none : Option (List (String × ForkData)))
        else some (stepB D (forks.filter (fun p => decide (p.1 ∉ D)))
            (msgs.filter (fun m => decide (m.id ∉ D)))).2).getD [] =
        (stepB D (forks.filter (fun p => decide (p.1 ∉ D)))
            (msgs.filter (fun m => decide (m.id ∉ D)))).2
    by_cases hemp : (stepB D (forks.filter (fun p => decide (p.1 ∉ D)))
        (msgs.filter (fun m => decide (m.id ∉ D)))).2.isEmpty = true
    · rw [if_pos hemp, Option.getD_none]
      exact (List.isEmpty_iff.1 hemp).symm
    · rw [if_neg hemp, Option.getD_some]

theorem C3_fork_pruning_amended (s : Session) (mid : String) (hwf : Wf s) :
    ∀ p ∈ forksOf (removeMessage s mid),
      2 ≤ countGood p.2 ∨ ∃ b, p.2.lists = [b] ∧ b.messages ≠ [] := by
  obtain ⟨hu, hk, hent⟩ := hwf
  intro p hp
  unfold removeMessage at hp
  rcases hrs : removalSet s mid with _ | D
  · rw [hrs] at hp
    exact Or.inl (hent p hp).2.2.1
  · rw [hrs] at hp
    have hp' : p ∈ forksOf (applyDeletion s D) := hp
    rw [applyDeletion_forksOf] at hp'
    obtain ⟨k, fd'⟩ := p
    rcases stepB_snd_mem hp' with ⟨fd, msgs', hmem, hproc⟩
    have hmem2 : (k, fd) ∈ forksOf s := List.mem_of_mem_filter hmem
    have hfacts := hent (k, fd) hmem2
    exact processEntry_good hfacts.1 hfacts.2.1 hfacts.2.2.1 hproc

/-- Witness for the amended C3 at the concrete session `exC3`. -/
theorem C3_fork_pruning_amended_witness :
    Wf exC3 ∧
    (∀ p ∈ forksOf (removeMessage exC3 "t"),
      2 ≤ countGood p.2 ∨ ∃ b, p.2.lists = [b] ∧ b.messages ≠ []) :=
  ⟨by decide, C3_fork_pruning_amended exC3 "t" (by decide)⟩

-- ===== helper lemmas for the branch-promotion analysis (C2) =====

theorem exists_append_of_getLast? : ∀ {l : List Msg} {a : Msg},
    l.getLast? = some a → ∃ l', l = l' ++ [a] := by
  intro l
  induction l with
  | nil => intro a h; exact absurd h (by simp)
  | cons x xs ih =>
    intro a h
    cases xs with
    | nil =>
      have hxa : x = a := by simpa using h
      exact ⟨[], by simp [hxa]⟩
    | cons y ys =>
      rw [List.getLast?_cons_cons] at h
      rcases ih h with ⟨l', hl⟩
      exact ⟨x :: l', by rw [hl]; rfl⟩

theorem findIndexAux_append_singleton {p : α → Bool} {l₁ : List α} {b : α}
    (h1 : ∀ a ∈ l₁, p a = false) (hb : p b = true) :
    ∀ i, findIndexAux p (l₁ ++ [b]) i = some (i + l₁.length) := by
  induction l₁ with
  | nil => intro i; simp [findIndexAux, hb]
  | cons x xs ih =>
    intro i
    have hx : p x = false := h1 x (List.mem_cons_self _ _)
    show findIndexAux p (x :: (xs ++ [b])) i = _
    unfold findIndexAux
    rw [hx]
    simp only [Bool.false_eq_true, if_false]
    rw [ih (fun a ha => h1 a (List.mem_cons_of_mem _ ha)) (i + 1)]
    congr 1
    simp only [List.length_cons]
    omega

theorem findIndex_last_of_nodup {l : List Msg} {lm : Msg}
    (hn : (msgIds l).Nodup) (hlast : l.getLast? = some lm) :
    findIndex (fun m => m.id == lm.id) l = some (l.length - 1) := by
  rcases exists_append_of_getLast? hlast with ⟨pre, hl⟩
  subst hl
  have hpre : ∀ a ∈ pre, (a.id == lm.id) = false := by
    intro a ha
    have hdisj := List.disjoint_of_nodup_append (by
      have : msgIds (pre ++ [lm]) = msgIds pre ++ msgIds [lm] := by
        unfold msgIds; rw [List.map_append]
      rw [this] at hn; exact hn)
    have hne : a.id ≠ lm.id := by
      intro he
      exact hdisj (List.mem_map.2 ⟨a, ha, rfl⟩) (by simp [msgIds, ← he])
    exact beq_eq_false_iff_ne.2 hne
  unfold findIndex
  rw [findIndexAux_append_singleton hpre (beq_self_eq_true _) 0]
  simp

theorem find?_enumFrom_of_first {p : Nat × Branch → Bool} :
    ∀ {l : List Branch} (n : Nat) {k : Nat} {b : Branch},
      l.get? k = some b → p (n + k, b) = true →
      (∀ i a, i < k → l.get? i = some a → p (n + i, a) = false) →
      (l.enumFrom n).find? p = some (n + k, b) := by
  intro l
  induction l with
  | nil => intro n k b h; simp at h
  | cons x xs ih =>
    intro n k b hget hp hfirst
    cases k with
    | zero =>
      have hxb : x = b := by simpa using hget
      subst hxb
      show ((n, x) :: xs.enumFrom (n + 1)).find? p = some (n + 0, x)
      rw [List.find?_cons_of_pos]
      · simp
      · simpa using hp
    | succ k' =>
      have hx : p (n, x) = false := by
        have := hfirst 0 x (Nat.succ_pos k') (by simp)
        simpa using this
      show ((n, x) :: xs.enumFrom (n + 1)).find? p = some (n + (k' + 1), b)
      rw [List.find?_cons_of_neg]
      · have hrec := ih (n + 1) (k := k') (b := b) (by simpa using hget)
          (by rw [show n + 1 + k' = n + (k' + 1) by omega]; exact hp)
          (fun i a hi ha => by
            rw [show n + 1 + i = n + (i + 1) by omega]
            exact hfirst (i + 1) a (by omega) (by simpa using ha))
        rw [hrec, show n + 1 + k' = n + (k' + 1) from by omega]
      · simp [hx]

/-- When the stored active slot is empty (data-model invariant 3), the
source's promotion search — first branch with content at an index other
than the active one — finds exactly the first branch with content. -/
theorem findNextValid_eq_first_nonempty {L : List Branch} {pos : Nat} {slot : Branch}
    (hpos : L.get? pos = some slot) (hemp : slot.messages = []) :
    findNextValid L pos = findIndex (fun l => !l.messages.isEmpty) L := by
  rcases hfi : findIndex (fun l => !l.messages.isEmpty) L with _ | j
  · rcases hnv : findNextValid L pos with _ | j'
    · exact hfi.symm
    · rcases findNextValid_some hnv with ⟨b, hbget, _, hbne⟩
      rw [findIndex_eq_none_iff] at hfi
      have hall := hfi b (List.get?_mem hbget)
      have hbt : b.messages.isEmpty = true := by
        revert hall; cases b.messages.isEmpty <;> simp
      rw [hbt] at hbne
      exact Bool.noConfusion hbne
  · rcases (findIndex_some_spec hfi) with ⟨⟨b, hbget, hbp⟩, hfirst⟩
    have hbne : b.messages.isEmpty = false := by
      revert hbp; cases b.messages.isEmpty <;> simp
    have hjpos : j ≠ pos := by
      intro he
      rw [he, hpos] at hbget
      have : slot = b := Option.some.inj hbget
      rw [← this, hemp] at hbne
      simp at hbne
    have hfind := find?_enumFrom_of_first (p := fun p => p.1 != pos && !p.2.messages.isEmpty)
      0 hbget
      (by simp [hjpos, hbne])
      (fun i a hi ha => by
        have := hfirst i a hi ha
        have hai : a.messages.isEmpty = true := by
          revert this; cases a.messages.isEmpty <;> simp
        simp [hai])
    unfold findNextValid
    rw [show (0 : Nat) + j = j from by omega] at hfind
    rw [List.enum, hfind, hfi]
    rfl

theorem mem_keepValid_self {nl : List Branch} {j : Nat} {b : Branch}
    (h : nl.get? j = some b) : b ∈ keepValid nl j := by
  unfold keepValid
  refine List.mem_map.2 ⟨(j, b), ?_, rfl⟩
  refine List.mem_filter.2 ⟨?_, ?_⟩
  · rw [List.mem_enum_iff_getElem?, ← List.get?_eq_getElem?]
    exact h
  · simp

/-- Whenever a fork entry survives `finishEntry`, its re-found `position`
indexes exactly the branch that sat at the active index `j` of the
filtered branch list (the active slot is preserved, by id lookup). -/
theorem finishEntry_active_slot {fd : ForkData} {nl2 : List Branch} {j : Nat}
    {fd' : ForkData} {slot2 : Branch}
    (hids : (nl2.map (·.id)).Nodup)
    (hget : nl2.get? j = some slot2)
    (h : finishEntry fd nl2 j = some fd') :
    fd'.lists.get? fd'.position = some slot2 := by
  unfold finishEntry at h
  by_cases h0 : (((keepValid nl2 j).length == 0) : Bool) = true
  · rw [if_pos h0] at h; exact absurd h (by simp)
  · rw [if_neg h0] at h
    by_cases h1 :
        (((keepValid nl2 j).length == 1 &&
          ((keepValid nl2 j).headD default).messages.isEmpty) : Bool) = true
    · rw [if_pos h1] at h; exact absurd h (by simp)
    · rw [if_neg h1] at h
      have hfd' : fd' = ⟨keepValid nl2 j, finishPos nl2 j (keepValid nl2 j)⟩ :=
        (Option.some.inj h).symm
      have hVids : ((keepValid nl2 j).map (·.id)).Nodup :=
        List.Nodup.sublist ((keepValid_sublist nl2 j).map (·.id)) hids
      have hmem : slot2 ∈ keepValid nl2 j := mem_keepValid_self hget
      have hsomefi : findIndex (fun l => l.id == slot2.id) (keepValid nl2 j) ≠ none :=
        findIndex_isSome_of_mem hmem (beq_self_eq_true _)
      rcases hfi : findIndex (fun l => l.id == slot2.id) (keepValid nl2 j) with _ | v
      · exact absurd hfi hsomefi
      · have hfp : finishPos nl2 j (keepValid nl2 j) = v := finishPos_eq hget hfi
        rcases (findIndex_some_spec hfi).1 with ⟨c, hcget, hcid⟩
        rcases List.mem_iff_get?.1 hmem with ⟨i, higet⟩
        have hcid' : c.id = slot2.id := beq_iff_eq.1 hcid
        have hv : v = i := nodup_ids_index_unique hVids hcget higet hcid'
        rw [hfd']
        show (keepValid nl2 j).get? (finishPos nl2 j (keepValid nl2 j)) = some slot2
        rw [hfp, hv]
        exact higet

theorem processEntry_fst_of_small {deleted : Finset String} {msgs : List Msg}
    {k : String} {fd : ForkData}
    (h : ∀ j, findIndex (fun m => m.id == k) msgs = some j → j < msgs.length - 1) :
    (processEntry deleted msgs k fd).1 = msgs := by
  unfold processEntry
  rcases hfi : findIndex (fun m => m.id == k) msgs with _ | fpi
  · rw [hfi]
  · rw [hfi]
    show (promoteStep msgs (fd.lists.map (filterBranch deleted)) fd.position fpi).1 = msgs
    unfold promoteStep
    rw [if_pos (h fpi hfi)]

theorem processEntry_fst_of_nopromo {deleted : Finset String} {msgs : List Msg}
    {k : String} {fd : ForkData}
    (h : findNextValid (fd.lists.map (filterBranch deleted)) fd.position = none) :
    (processEntry deleted msgs k fd).1 = msgs := by
  unfold processEntry
  rcases hfi : findIndex (fun m => m.id == k) msgs with _ | fpi
  · rw [hfi]
  · rw [hfi]
    show (promoteStep msgs (fd.lists.map (filterBranch deleted)) fd.position fpi).1 = msgs
    unfold promoteStep
    by_cases hact : fpi < msgs.length - 1
    · rw [if_pos hact]
    · rw [if_neg hact, h]

theorem stepB_fst_congr (deleted : Finset String) :
    ∀ (forks : List (String × ForkData)) (msgs : List Msg),
      (∀ p ∈ forks, (processEntry deleted msgs p.1 p.2).1 = msgs) →
      (stepB deleted forks msgs).1 = msgs := by
  intro forks
  induction forks with
  | nil => intro msgs _; rfl
  | cons q rest ih =>
    intro msgs h
    obtain ⟨q1, q2⟩ := q
    have hq := h (q1, q2) (List.mem_cons_self _ _)
    show (stepB deleted rest (processEntry deleted msgs q1 q2).1).1 = msgs
    rw [hq]
    exact ih msgs (fun p hp => h p (List.mem_cons_of_mem _ hp))

theorem stepB_append (deleted : Finset String) :
    ∀ (l₁ l₂ : List (String × ForkData)) (msgs : List Msg),
      stepB deleted (l₁ ++ l₂) msgs =
        ((stepB deleted l₂ (stepB deleted l₁ msgs).1).1,
         (stepB deleted l₁ msgs).2 ++ (stepB deleted l₂ (stepB deleted l₁ msgs).1).2) := by
  intro l₁
  induction l₁ with
  | nil => intro l₂ msgs; simp [stepB]
  | cons q rest ih =>
    intro l₂ msgs
    obtain ⟨q1, q2⟩ := q
    show stepB deleted ((q1, q2) :: (rest ++ l₂)) msgs = _
    have h1 : stepB deleted ((q1, q2) :: (rest ++ l₂)) msgs =
        ((stepB deleted (rest ++ l₂) (processEntry deleted msgs q1 q2).1).1,
         match (processEntry deleted msgs q1 q2).2 with
         | some fd' => (q1, fd') :: (stepB deleted (rest ++ l₂) (processEntry deleted msgs q1 q2).1).2
         | none => (stepB deleted (rest ++ l₂) (processEntry deleted msgs q1 q2).1).2) := rfl
    have h2 : stepB deleted ((q1, q2) :: rest) msgs =
        ((stepB deleted rest (processEntry deleted msgs q1 q2).1).1,
         match (processEntry deleted msgs q1 q2).2 with
         | some fd' => (q1, fd') :: (stepB deleted rest (processEntry deleted msgs q1 q2).1).2
         | none => (stepB deleted rest (processEntry deleted msgs q1 q2).1).2) := rfl
    rw [h1, h2, ih l₂ (processEntry deleted msgs q1 q2).1]
    rcases (processEntry deleted msgs q1 q2).2 with _ | fd' <;> simp

theorem stepB_keys (deleted : Finset String) :
    ∀ (forks : List (String × ForkData)) (msgs : List Msg),
      ∀ p ∈ (stepB deleted forks msgs).2, p.1 ∈ forks.map (·.1) := by
  intro forks
  induction forks with
  | nil => intro msgs p hp; simp [stepB] at hp
  | cons q rest ih =>
    intro msgs p hp
    obtain ⟨q1, q2⟩ := q
    have hstep : (stepB deleted ((q1, q2) :: rest) msgs).2 =
        (match (processEntry deleted msgs q1 q2).2 with
         | some fd' => (q1, fd') :: (stepB deleted rest (processEntry deleted msgs q1 q2).1).2
         | none => (stepB deleted rest (processEntry deleted msgs q1 q2).1).2) := rfl
    rw [hstep] at hp
    rcases hpe : (processEntry deleted msgs q1 q2).2 with _ | fd'
    · rw [hpe] at hp
      exact List.mem_cons_of_mem _ (ih _ p hp)
    · rw [hpe] at hp
      rcases List.mem_cons.1 hp with heq | hp2
      · rw [heq]
        exact List.mem_cons_self _ _
      · exact List.mem_cons_of_mem _ (ih _ p hp2)

theorem lookupFork_append_skip {l₁ l₂ : List (String × ForkData)} {k : String}
    (h : ∀ p ∈ l₁, p.1 ≠ k) :
    lookupFork (l₁ ++ l₂) k = lookupFork l₂ k := by
  unfold lookupFork
  rw [List.find?_append]
  have h1 : l₁.find? (fun p => p.1 == k) = none := by
    rw [List.find?_eq_none]
    intro p hp
    simp [h p hp]
  rw [h1]
  rfl

theorem keepValid_all_empty_le_one {L : List Branch} (pos : Nat)
    (h : ∀ b ∈ L, b.messages.isEmpty = true) :
    (keepValid L pos).length ≤ 1 := by
  unfold keepValid
  rw [List.length_map]
  have hfst : ∀ q ∈ L.enum.filter (fun p => !p.2.messages.isEmpty || p.1 == pos),
      q.1 = pos := by
    intro q hq
    have hpred := List.of_mem_filter hq
    have hmem := List.mem_of_mem_filter hq
    rw [List.mem_enum_iff_getElem?] at hmem
    have hqL : q.2 ∈ L := List.get?_mem (by rw [List.get?_eq_getElem?]; exact hmem)
    have hqe := h q.2 hqL
    rw [Bool.or_eq_true, Bool.not_eq_true', beq_iff_eq] at hpred
    rcases hpred with hp | hp
    · rw [hqe] at hp; exact absurd hp (by simp)
    · exact hp
  have hnd : ((L.enum.filter (fun p => !p.2.messages.isEmpty || p.1 == pos)).map
      Prod.fst).Nodup := by
    refine List.Nodup.sublist ((List.filter_sublist _).map Prod.fst) ?_
    rw [List.enum_map_fst]
    exact List.nodup_range _
  rcases hF : L.enum.filter (fun p => !p.2.messages.isEmpty || p.1 == pos) with _ | ⟨q1, F'⟩
  · rw [hF]; simp
  · rcases F' with _ | ⟨q2, t⟩
    · rw [hF]; simp
    · exfalso
      have h1 : q1.1 = pos := hfst q1 (by rw [hF]; exact List.mem_cons_self _ _)
      have h2 : q2.1 = pos := hfst q2 (by
        rw [hF]; exact List.mem_cons_of_mem _ (List.mem_cons_self _ _))
      rw [hF] at hnd
      simp only [List.map_cons, List.nodup_cons, List.mem_cons] at hnd
      exact hnd.1 (Or.inl (by rw [h1, h2]))

theorem keepValid_all_empty_mem {L : List Branch} {pos : Nat}
    (h : ∀ b ∈ L, b.messages.isEmpty = true) :
    ∀ x ∈ keepValid L pos, x.messages.isEmpty = true := by
  intro x hx
  exact h x (List.Sublist.mem hx (keepValid_sublist L pos))

theorem finishEntry_none_of_all_empty {fd : ForkData} {L : List Branch} {pos : Nat}
    (h : ∀ b ∈ L, b.messages.isEmpty = true) :
    finishEntry fd L pos = none := by
  unfold finishEntry
  have hle := keepValid_all_empty_le_one pos h
  rcases hV : keepValid L pos with _ | ⟨x, V'⟩
  · simp
  · rcases V' with _ | ⟨y, t⟩
    · have hx : x.messages.isEmpty = true :=
        keepValid_all_empty_mem h x (by rw [hV]; exact List.mem_cons_self _ _)
      simp [hx]
    · rw [hV] at hle
      simp at hle

theorem lookupFork_cons_self (k : String) (fd : ForkData)
    (rest : List (String × ForkData)) :
    lookupFork ((k, fd) :: rest) k = some fd := by
  unfold lookupFork
  rw [List.find?_cons_of_pos]
  · rfl
  · exact beq_self_eq_true k

theorem lookupFork_eq_none_of {l : List (String × ForkData)} {k : String}
    (h : ∀ p ∈ l, p.1 ≠ k) : lookupFork l k = none := by
  unfold lookupFork
  rw [List.find?_eq_none.2 (fun p hp => by simp [h p hp])]
  rfl

theorem applyDeletion_messages (s : Session) (D : Finset String) :
    (applyDeletion s D).messages =
      (stepB D ((forksOf s).filter (fun p => decide (p.1 ∉ D)))
        (s.messages.filter (fun m => decide (m.id ∉ D)))).1 := by
  obtain ⟨msgs, hashOpt, ths⟩ := s
  cases hashOpt with
  | none => rfl
  | some forks => rfl

/-- Core of the branch-promotion analysis: running the step-3.B fold over
`l₁ ++ (k, fd) :: l₂` from a primary list `MK` whose last message is the
fork point `k`, when no other entry is keyed `k`.  If some filtered branch
of `fd` has content, the first such branch is appended to the primary list
right after the fork point, its slot is emptied and the surviving entry's
position re-points at it; if no branch has content, the primary list is
unchanged and the entry is pruned. -/
theorem stepB_promotion_aux (D : Finset String) (MK : List Msg) (k : String)
    (fd : ForkData) (lm : Msg) (l₁ l₂ : List (String × ForkData)) (fslot : Branch)
    (hMKids : (msgIds MK).Nodup)
    (hlm : MK.getLast? = some lm) (hlmid : lm.id = k)
    (hk1 : ∀ p ∈ l₁, p.1 ≠ k) (hk2 : ∀ p ∈ l₂, p.1 ≠ k)
    (hbids : (fd.lists.map (·.id)).Nodup)
    (hLpos : (fd.lists.map (filterBranch D)).get? fd.position = some fslot)
    (hfslot : fslot.messages = []) :
    (∀ j, findIndex (fun l => !l.messages.isEmpty) (fd.lists.map (filterBranch D)) = some j →
      (∃ t, (stepB D (l₁ ++ (k, fd) :: l₂) MK).1 =
          MK ++ ((fd.lists.map (filterBranch D)).getD j default).messages ++ t) ∧
      (∀ e, lookupFork (stepB D (l₁ ++ (k, fd) :: l₂) MK).2 k = some e →
        e.lists.get? e.position =
          some (emptyBranch ((fd.lists.map (filterBranch D)).getD j default))))
    ∧ (findIndex (fun l => !l.messages.isEmpty) (fd.lists.map (filterBranch D)) = none →
      (stepB D (l₁ ++ (k, fd) :: l₂) MK).1 = MK ∧
      lookupFork (stepB D (l₁ ++ (k, fd) :: l₂) MK).2 k = none) := by
  have hnveq := findNextValid_eq_first_nonempty hLpos hfslot
  have hfindlast : findIndex (fun m => m.id == k) MK = some (MK.length - 1) := by
    have h := findIndex_last_of_nodup hMKids hlm
    rw [hlmid] at h
    exact h
  obtain ⟨pre, hpre⟩ := exists_append_of_getLast? hlm
  have hsmall : ∀ key : String, key ≠ k →
      ∀ j', findIndex (fun m => m.id == key) MK = some j' → j' < MK.length - 1 := by
    intro key hkey j' hj'
    rcases (findIndex_some_spec hj').1 with ⟨a, haget, hap⟩
    have haid : a.id = key := beq_iff_eq.1 hap
    have hlt : j' < MK.length := (List.get?_eq_some.1 haget).choose
    by_contra hge
    have hj'eq : j' = MK.length - 1 := by omega
    have hlastget : MK.get? (MK.length - 1) = some lm := by
      rw [hpre]
      have hlen : (pre ++ [lm]).length - 1 = pre.length := by simp
      rw [hlen, List.get?_append_right (le_refl _)]
      simp
    rw [hj'eq, hlastget] at haget
    have hal : lm = a := Option.some.inj haget
    rw [← hal, hlmid] at haid
    exact hkey haid.symm
  have hl₁ : (stepB D l₁ MK).1 = MK :=
    stepB_fst_congr D l₁ MK (fun p hp =>
      processEntry_fst_of_small (fun j hj => hsmall p.1 (hk1 p hp) j hj))
  have hdecomp := stepB_append D l₁ ((k, fd) :: l₂) MK
  have hout1keys : ∀ p ∈ (stepB D l₁ MK).2, p.1 ≠ k := by
    intro p hp
    have := stepB_keys D l₁ MK p hp
    rcases List.mem_map.1 this with ⟨q, hq, hq1⟩
    rw [← hq1]
    exact hk1 q hq
  constructor
  · -- some branch still has content: promotion
    intro j hj
    have hnv : findNextValid (fd.lists.map (filterBranch D)) fd.position = some j := by
      rw [hnveq]; exact hj
    rcases (findIndex_some_spec hj).1 with ⟨b, hbget, hbp⟩
    have hbgetE : (fd.lists.map (filterBranch D))[j]? = some b := by
      rw [← List.get?_eq_getElem?]; exact hbget
    have hgetD : (fd.lists.map (filterBranch D)).getD j default = b := by
      simp [List.getD, hbgetE]
    have hpe1 : (processEntry D MK k fd).1 = MK ++ b.messages := by
      unfold processEntry
      rw [hfindlast]
      show (promoteStep MK (fd.lists.map (filterBranch D)) fd.position (MK.length - 1)).1 = _
      unfold promoteStep
      rw [if_neg (Nat.lt_irrefl _)]
      simp only [hnv]
      rw [hgetD]
    have hpe2 : (processEntry D MK k fd).2 =
        finishEntry fd ((fd.lists.map (filterBranch D)).set j (emptyBranch b)) j := by
      unfold processEntry
      rw [hfindlast]
      show finishEntry fd
        (promoteStep MK (fd.lists.map (filterBranch D)) fd.position (MK.length - 1)).2.1
        (promoteStep MK (fd.lists.map (filterBranch D)) fd.position (MK.length - 1)).2.2 = _
      unfold promoteStep
      rw [if_neg (Nat.lt_irrefl _)]
      simp only [hnv]
      rw [hgetD]
    have hinner1 : (stepB D ((k, fd) :: l₂) MK).1 =
        (stepB D l₂ (processEntry D MK k fd).1).1 := rfl
    have hinner2 : (stepB D ((k, fd) :: l₂) MK).2 =
        (match (processEntry D MK k fd).2 with
         | some fd'' => (k, fd'') :: (stepB D l₂ (processEntry D MK k fd).1).2
         | none => (stepB D l₂ (processEntry D MK k fd).1).2) := rfl
    constructor
    · rcases stepB_fst D l₂ ((processEntry D MK k fd).1) with ⟨t, ht, _⟩
      refine ⟨t, ?_⟩
      rw [hdecomp]
      show (stepB D ((k, fd) :: l₂) (stepB D l₁ MK).1).1 = _
      rw [hl₁, hinner1, ht, hpe1, hgetD, List.append_assoc]
    · intro e he
      rw [hdecomp] at he
      rw [hgetD]
      have he2 : lookupFork ((stepB D ((k, fd) :: l₂) (stepB D l₁ MK).1).2) k = some e := by
        rw [← lookupFork_append_skip hout1keys]
        exact he
      rw [hl₁, hinner2] at he2
      rcases hpe : (processEntry D MK k fd).2 with _ | fd''
      · rw [hpe] at he2
        have hnone : lookupFork (stepB D l₂ (processEntry D MK k fd).1).2 k = none := by
          apply lookupFork_eq_none_of
          intro p hp
          rcases List.mem_map.1 (stepB_keys D l₂ _ p hp) with ⟨q, hq, hq1⟩
          rw [← hq1]
          exact hk2 q hq
        rw [hnone] at he2
        exact Option.noConfusion he2
      · rw [hpe] at he2
        rw [lookupFork_cons_self] at he2
        have hefd : fd'' = e := Option.some.inj he2
        rw [hpe] at hpe2
        have hlt : j < (fd.lists.map (filterBranch D)).length :=
          (List.get?_eq_some.1 hbget).choose
        have hsetids : (((fd.lists.map (filterBranch D)).set j
            (emptyBranch b)).map (·.id)).Nodup := by
          rw [map_ids_set _ _ (emptyBranch b) b hbget rfl, map_filterBranch_ids]
          exact hbids
        have hsetget : ((fd.lists.map (filterBranch D)).set j
            (emptyBranch b)).get? j = some (emptyBranch b) := by
          rw [List.get?_eq_getElem?]
          exact List.getElem?_set_eq_of_lt (emptyBranch b) hlt
        have := finishEntry_active_slot hsetids hsetget hpe2.symm
        rw [hefd] at this
        exact this
  · -- no branch has content: no promotion, entry pruned
    intro hnone
    have hnv : findNextValid (fd.lists.map (filterBranch D)) fd.position = none := by
      rw [hnveq]; exact hnone
    have hallemp : ∀ b ∈ fd.lists.map (filterBranch D), b.messages.isEmpty = true := by
      rw [findIndex_eq_none_iff] at hnone
      intro b hb
      have := hnone b hb
      revert this; cases b.messages.isEmpty <;> simp
    have hpe2 : (processEntry D MK k fd).2 =
        finishEntry fd (fd.lists.map (filterBranch D)) fd.position := by
      unfold processEntry
      rw [hfindlast]
      show finishEntry fd
        (promoteStep MK (fd.lists.map (filterBranch D)) fd.position (MK.length - 1)).2.1
        (promoteStep MK (fd.lists.map (filterBranch D)) fd.position (MK.length - 1)).2.2 = _
      unfold promoteStep
      rw [if_neg (Nat.lt_irrefl _), hnv]
    have hpe2n : (processEntry D MK k fd).2 = none := by
      rw [hpe2]
      exact finishEntry_none_of_all_empty hallemp
    have hallunch : ∀ p ∈ l₁ ++ (k, fd) :: l₂, (processEntry D MK p.1 p.2).1 = MK := by
      intro p hp
      rcases List.mem_append.1 hp with hp1 | hp1
      · exact processEntry_fst_of_small (fun j hj => hsmall p.1 (hk1 p hp1) j hj)
      · rcases List.mem_cons.1 hp1 with heq | hp2
        · rw [heq]
          exact processEntry_fst_of_nopromo hnv
        · exact processEntry_fst_of_small (fun j hj => hsmall p.1 (hk2 p hp2) j hj)
    constructor
    · exact stepB_fst_congr D (l₁ ++ (k, fd) :: l₂) MK hallunch
    · rw [hdecomp]
      show lookupFork ((stepB D l₁ MK).2 ++
        (stepB D ((k, fd) :: l₂) (stepB D l₁ MK).1).2) k = none
      rw [lookupFork_append_skip hout1keys, hl₁]
      have hinner2 : (stepB D ((k, fd) :: l₂) MK).2 =
          (match (processEntry D MK k fd).2 with
           | some fd'' => (k, fd'') :: (stepB D l₂ (processEntry D MK k fd).1).2
           | none => (stepB D l₂ (processEntry D MK k fd).1).2) := rfl
      rw [hinner2, hpe2n]
      apply lookupFork_eq_none_of
      intro p hp
      rcases List.mem_map.1 (stepB_keys D l₂ _ p hp) with ⟨q, hq, hq1⟩
      rw [← hq1]
      exact hk2 q hq

/-- C2: for a fork entry whose fork-point message `k` survives the cascade
and is, after the physical deletion, the last remaining message of the
primary sequence, `removeMessage` promotes the first branch that still has
messages into the primary sequence immediately after the fork point
(further promotions of nested forks can only append after it), empties
that branch's stored slot, and leaves the surviving entry's position
pointing at that emptied slot; if no branch has content, the primary
sequence is left ending at the fork point (a childless leaf) and the
entry is pruned. -/
theorem C2_removeMessage_branch_promotion (s : Session) (mid k : String)
    (fd : ForkData) (D : Finset String)
    (hwf : Wf s)
    (hrs : removalSet s mid = some D)
    (hmem : (k, fd) ∈ forksOf s)
    (hlast : ((s.messages.filter (fun m => decide (m.id ∉ D))).getLast?).map (·.id) =
      some k) :
    (∀ j, findIndex (fun l => !l.messages.isEmpty) (fd.lists.map (filterBranch D)) = some j →
      (∃ t, (removeMessage s mid).messages =
          s.messages.filter (fun m => decide (m.id ∉ D)) ++
          ((fd.lists.map (filterBranch D)).getD j default).messages ++ t) ∧
      (∀ e, lookupFork (forksOf (removeMessage s mid)) k = some e →
        e.lists.get? e.position =
          some (emptyBranch ((fd.lists.map (filterBranch D)).getD j default))))
    ∧ (findIndex (fun l => !l.messages.isEmpty) (fd.lists.map (filterBranch D)) = none →
      (removeMessage s mid).messages = s.messages.filter (fun m => decide (m.id ∉ D)) ∧
      lookupFork (forksOf (removeMessage s mid)) k = none) := by
  obtain ⟨hu, hkeys, hent⟩ := hwf
  rcases hlm0 : (s.messages.filter (fun m => decide (m.id ∉ D))).getLast? with _ | lm
  · rw [hlm0] at hlast
    exact absurd hlast (by simp)
  · rw [hlm0] at hlast
    have hlmid : lm.id = k := by simpa using hlast
    have hlmMK : lm ∈ s.messages.filter (fun m => decide (m.id ∉ D)) := by
      obtain ⟨pre, hpre⟩ := exists_append_of_getLast? hlm0
      rw [hpre]
      exact List.mem_append.2 (Or.inr (by simp))
    have hkD : k ∉ D := by
      have hf := List.of_mem_filter hlmMK
      rw [← hlmid]
      simpa using hf
    have hlmmain : lm ∈ s.messages := List.mem_of_mem_filter hlmMK
    have hkmain : k ∈ msgIds s.messages := List.mem_map.2 ⟨lm, hlmmain, hlmid⟩
    have hmain_nodup : (msgIds s.messages).Nodup := (List.nodup_append.1 hu).1
    have hMKids : (msgIds (s.messages.filter (fun m => decide (m.id ∉ D)))).Nodup := by
      unfold msgIds at *
      exact List.Nodup.sublist
        ((List.filter_sublist s.messages).map (fun m : Msg => m.id)) hmain_nodup
    obtain ⟨hbids, hposlt, hcg, hslot⟩ := hent (k, fd) hmem
    obtain ⟨slot, hslotget, hslotemp⟩ := hslot hkmain
    have hLpos : (fd.lists.map (filterBranch D)).get? fd.position =
        some (filterBranch D slot) := by
      rw [List.get?_eq_getElem?, List.getElem?_map, ← List.get?_eq_getElem?, hslotget]
      rfl
    have hfslot : (filterBranch D slot).messages = [] := by
      show slot.messages.filter (fun m => decide (m.id ∉ D)) = []
      rw [hslotemp]
      rfl
    have hmemA : (k, fd) ∈ (forksOf s).filter (fun p => decide (p.1 ∉ D)) :=
      List.mem_filter.2 ⟨hmem, by simpa using hkD⟩
    have hkeysA : (((forksOf s).filter (fun p => decide (p.1 ∉ D))).map (·.1)).Nodup :=
      List.Nodup.sublist
        ((List.filter_sublist (forksOf s)).map (fun p : String × ForkData => p.1)) hkeys
    obtain ⟨l₁, l₂, hsplit⟩ := List.append_of_mem hmemA
    have hkeysA2 : (l₁.map (·.1) ++ (k :: l₂.map (·.1))).Nodup := by
      have hmapeq : (((forksOf s).filter (fun p => decide (p.1 ∉ D))).map (·.1)) =
          l₁.map (·.1) ++ (k :: l₂.map (·.1)) := by
        rw [hsplit]
        simp
      rw [← hmapeq]
      exact hkeysA
    have hk1 : ∀ p ∈ l₁, p.1 ≠ k := by
      intro p hp he
      exact (List.disjoint_of_nodup_append hkeysA2)
        (List.mem_map.2 ⟨p, hp, rfl⟩) (by rw [he]; exact List.mem_cons_self _ _)
    have hk2 : ∀ p ∈ l₂, p.1 ≠ k := by
      intro p hp he
      have h2 := (List.nodup_append.1 hkeysA2).2.1
      rw [List.nodup_cons] at h2
      exact h2.1 (by rw [← he]; exact List.mem_map.2 ⟨p, hp, rfl⟩)
    have haux := stepB_promotion_aux D (s.messages.filter (fun m => decide (m.id ∉ D))) k fd
      lm l₁ l₂ (filterBranch D slot) hMKids hlm0 hlmid hk1 hk2 hbids hLpos hfslot
    have hrm : removeMessage s mid = applyDeletion s D := by
      unfold removeMessage
      rw [hrs]
    have hmsgs : (removeMessage s mid).messages =
        (stepB D (l₁ ++ (k, fd) :: l₂)
          (s.messages.filter (fun m => decide (m.id ∉ D)))).1 := by
      rw [hrm, applyDeletion_messages, ← hsplit]
    have hforks : forksOf (removeMessage s mid) =
        (stepB D (l₁ ++ (k, fd) :: l₂)
          (s.messages.filter (fun m => decide (m.id ∉ D)))).2 := by
      rw [hrm, applyDeletion_forksOf, ← hsplit]
    constructor
    · intro j hj
      rcases haux.1 j hj with ⟨⟨t, ht⟩, hlk⟩
      refine ⟨⟨t, by rw [hmsgs]; exact ht⟩, ?_⟩
      intro e he
      exact hlk e (by rw [← hforks]; exact he)
    · intro hn
      rcases haux.2 hn with ⟨h1, h2⟩
      exact ⟨by rw [hmsgs]; exact h1, by rw [hforks]; exact h2⟩

/-- Fork entry of the C2 witness session: three branches at `"u1"`, the
active slot (index 2) living in the primary list. -/
def exC2fd : ForkData :=
  ⟨[⟨"l1", [⟨"a1", Role.assistant⟩]⟩, ⟨"l2", [⟨"b1", Role.assistant⟩]⟩, ⟨"l3", []⟩], 2⟩

def exC2w : Session :=
  ⟨[⟨"s", Role.system⟩, ⟨"u1", Role.user⟩, ⟨"u2", Role.user⟩, ⟨"a2", Role.assistant⟩],
   some [("u1", exC2fd)], none⟩

/-- The deletion set computed for the C2 witness call. -/
def exC2D : Finset String := (removalSet exC2w "u2").getD ∅

/-- Witness for C2: deleting `"u2"` from `exC2w` leaves `"u1"` as the last
primary message; the first branch with content (`"l1"`) is promoted and the
surviving entry's position points at its emptied slot. -/
theorem C2_removeMessage_branch_promotion_witness :
    (∀ j, findIndex (fun l => !l.messages.isEmpty)
        (exC2fd.lists.map (filterBranch exC2D)) = some j →
      (∃ t, (removeMessage exC2w "u2").messages =
          exC2w.messages.filter (fun m => decide (m.id ∉ exC2D)) ++
          ((exC2fd.lists.map (filterBranch exC2D)).getD j default).messages ++ t) ∧
      (∀ e, lookupFork (forksOf (removeMessage exC2w "u2")) "u1" = some e →
        e.lists.get? e.position =
          some (emptyBranch ((exC2fd.lists.map (filterBranch exC2D)).getD j default))))
    ∧ (findIndex (fun l => !l.messages.isEmpty)
        (exC2fd.lists.map (filterBranch exC2D)) = none →
      (removeMessage exC2w "u2").messages =
        exC2w.messages.filter (fun m => decide (m.id ∉ exC2D)) ∧
      lookupFork (forksOf (removeMessage exC2w "u2")) "u1" = none) :=
  C2_removeMessage_branch_promotion exC2w "u2" "u1" exC2fd exC2D
    (by decide) rfl (by decide) (by decide)

-- ===== insertMessage (C5) =====

/-- Insert `message` immediately after index `previousIndex`
(`[...slice(0, previousIndex + 1), message, ...slice(previousIndex + 1)]`). -/
def insertAfterInList (messages : List Msg) (previousIndex : Nat) (message : Msg) : List Msg :=
  messages.take (previousIndex + 1) ++ message :: messages.drop (previousIndex + 1)

/-- The thread-search loop of `insertMessage`: first thread containing the
id, together with the index found there. -/
def findThreadWith : List Thread → String → Option (Thread × Nat)
  | [], _ => none
  | th :: rest, pid =>
    match findIndex (fun m => m.id == pid) th.messages with
    | some i => some (th, i)
    | none => findThreadWith rest pid

/-- `insertMessage` from `chatStore.ts` (the session updater).  A present
`previousId` is looked up in the primary list, then in the threads; when it
is found nowhere — or when `previousId` is absent or the empty string,
which is falsy in JS — the message is appended to the tail of the primary
list.  Fork branches are never searched.  The function is total: no error
is ever raised. -/
def insertMessage (s : Session) (message : Msg) (previousId : Option String) : Session :=
  match previousId with
  | some pid =>
    if pid = "" then { s with messages := s.messages ++ [message] }
    else
      match findIndex (fun m => m.id == pid) s.messages with
      | some previousIndex =>
        { s with messages := insertAfterInList s.messages previousIndex message }
      | none =>
        match s.threads with
        | some threads =>
          match findThreadWith threads pid with
          | some (th, i) =>
            { s with threads := some (threads.map (fun t =>
                if t.id == th.id then
                  { th with messages := insertAfterInList th.messages i message }
                else t)) }
          | none => { s with messages := s.messages ++ [message] }
        | none => { s with messages := s.messages ++ [message] }
  | none => { s with messages := s.messages ++ [message] }

theorem findThreadWith_eq_none {threads : List Thread} {pid : String}
    (h : ∀ th ∈ threads, pid ∉ msgIds th.messages) :
    findThreadWith threads pid = none := by
  induction threads with
  | nil => rfl
  | cons th rest ih =>
    unfold findThreadWith
    have hnone : findIndex (fun m => m.id == pid) th.messages = none := by
      rw [findIndex_id_eq_none_iff]
      exact h th (List.mem_cons_self _ _)
    rw [hnone]
    exact ih (fun t ht => h t (List.mem_cons_of_mem _ ht))

def exC5 : Session :=
  ⟨[⟨"s", Role.system⟩, ⟨"u1", Role.user⟩],
   some [("u1", ⟨[⟨"l1", [⟨"a1", Role.assistant⟩]⟩, ⟨"l2", []⟩], 1⟩)],
   some [⟨"th1", [⟨"t1", Role.user⟩]⟩]⟩

/-- C5 counterexample: `"zz"` exists nowhere in `exC5` — not in the
primary list, not in any thread, not in any fork branch — yet
`insertMessage` does not fail and does not leave the session unchanged: it
appends the new message to the tail of the primary list. -/
theorem C5_counterexample :
    ("zz" ∉ msgIds exC5.messages ∧
     (∀ th ∈ exC5.threads.getD [], "zz" ∉ msgIds th.messages) ∧
     ¬ InSomeBranch exC5 "zz") ∧
    insertMessage exC5 ⟨"new", Role.user⟩ (some "zz") ≠ exC5 ∧
    (insertMessage exC5 ⟨"new", Role.user⟩ (some "zz")).messages =
      exC5.messages ++ [⟨"new", Role.user⟩] := by
  refine ⟨⟨by decide, by decide, by decide⟩, by decide, by decide⟩

/-- C5 (amended): `insertMessage` never fails; with a non-empty
`previousId` that occurs neither in the primary message list nor in any
thread (fork branches are never searched), the message is appended at the
tail of the primary list and nothing else changes; when `previousId` is
found at index `i` of the primary list, the message is inserted
immediately after index `i`. -/
theorem C5_insertMessage_amended (s : Session) (message : Msg) (pid : String)
    (hne : pid ≠ "") :
    (pid ∉ msgIds s.messages →
      (∀ th ∈ s.threads.getD [], pid ∉ msgIds th.messages) →
      insertMessage s message (some pid) = { s with messages := s.messages ++ [message] })
    ∧ (∀ i, findIndex (fun m => m.id == pid) s.messages = some i →
      insertMessage s message (some pid) =
        { s with messages := s.messages.take (i + 1) ++ message :: s.messages.drop (i + 1) }) := by
  constructor
  · intro hmain hth
    show (if pid = "" then _ else _) = _
    rw [if_neg hne]
    have h1 : findIndex (fun m => m.id == pid) s.messages = none := by
      rw [findIndex_id_eq_none_iff]
      exact hmain
    rcases hts : s.threads with _ | threads
    · simp only [h1, hts]
    · have h2 : findThreadWith threads pid = none := by
        apply findThreadWith_eq_none
        intro th ht
        apply hth
        rw [hts]
        exact ht
      simp only [h1, hts, h2]
  · intro i hi
    show (if pid = "" then _ else _) = _
    rw [if_neg hne, hi]
    rfl

/-- Witness for the amended C5 at concrete sessions: both the
missing-target append and the found-target insertion. -/
theorem C5_insertMessage_amended_witness :
    ("zz" ∉ msgIds exC5.messages →
      (∀ th ∈ exC5.threads.getD [], "zz" ∉ msgIds th.messages) →
      insertMessage exC5 ⟨"new", Role.user⟩ (some "zz") =
        { exC5 with messages := exC5.messages ++ [⟨"new", Role.user⟩] })
    ∧ (∀ i, findIndex (fun m => m.id == "zz") exC5.messages = some i →
      insertMessage exC5 ⟨"new", Role.user⟩ (some "zz") =
        { exC5 with messages :=
            exC5.messages.take (i + 1) ++ ⟨"new", Role.user⟩ :: exC5.messages.drop (i + 1) }) :=
  C5_insertMessage_amended exC5 ⟨"new", Role.user⟩ "zz" (by decide)

-- ===== tree undo (C8) =====

/-- `TreeUndoState` from `viewModeStore.ts`, with the two JSON-string
snapshots held in parsed form (`handleUndo` round-trips them through
`JSON.parse`; a falsy `messageForksHashSnapshot` becomes `undefined`,
modelled as `none`). -/
structure TreeUndoState where
  sessionId : String
  messagesSnapshot : List Msg
  messageForksHashSnapshot : Option (List (String × ForkData))
  deletedCount : Nat
  timestamp : Nat
deriving DecidableEq, Repr

/-- `handleUndo` from `ConversationTreeView.tsx` composed with
`restoreSessionMessages` and `clearTreeUndoState`: the current undo slot
and the current session's id are passed in (the `Session` structure here
models only the fields the conversation operations touch), and the result
is the new undo slot together with the new session.  A missing snapshot or
a `sessionId` mismatch returns early, touching nothing; otherwise messages
and the fork hash are restored from the snapshot and the slot is
cleared. -/
def handleUndo (undoState : Option TreeUndoState) (sessionId : String)
    (session : Session) : Option TreeUndoState × Session :=
  match undoState with
  | none => (none, session)
  | some u =>
    if u.sessionId ≠ sessionId then (some u, session)
    else (none, { session with messages := u.messagesSnapshot,
                               messageForksHash := u.messageForksHashSnapshot })

/-- C8: with no snapshot, undo changes neither the session nor the slot;
with a snapshot belonging to a different session it is likewise a silent
no-op; with a matching snapshot the session's messages and
messageForksHash are restored from the snapshot and the slot is
cleared. -/
theorem C8_handleUndo_restores_or_noop (u? : Option TreeUndoState)
    (sid : String) (s : Session) :
    (u? = none → handleUndo u? sid s = (none, s))
    ∧ (∀ u, u? = some u → u.sessionId ≠ sid → handleUndo u? sid s = (some u, s))
    ∧ (∀ u, u? = some u → u.sessionId = sid →
        handleUndo u? sid s =
          (none, { s with messages := u.messagesSnapshot,
                          messageForksHash := u.messageForksHashSnapshot })) := by
  refine ⟨?_, ?_, ?_⟩
  · intro h
    rw [h]
    rfl
  · intro u hu hne
    rw [hu]
    show (if u.sessionId ≠ sid then _ else _) = _
    rw [if_pos hne]
  · intro u hu heq
    rw [hu]
    show (if u.sessionId ≠ sid then _ else _) = _
    rw [if_neg (by simpa using heq)]

def exC8u : TreeUndoState :=
  ⟨"sess1", [⟨"s", Role.system⟩, ⟨"u1", Role.user⟩],
   some [("u1", ⟨[⟨"l1", [⟨"a1", Role.assistant⟩]⟩, ⟨"l2", []⟩], 1⟩)], 2, 0⟩

/-- Witness for C8 at concrete inputs: all three cases exercised. -/
theorem C8_handleUndo_restores_or_noop_witness :
    (handleUndo none "sess1" exC5 = (none, exC5))
    ∧ (handleUndo (some exC8u) "other" exC5 = (some exC8u, exC5))
    ∧ (handleUndo (some exC8u) "sess1" exC5 =
        (none, { exC5 with messages := exC8u.messagesSnapshot,
                           messageForksHash := exC8u.messageForksHashSnapshot })) :=
  ⟨(C8_handleUndo_restores_or_noop none "sess1" exC5).1 rfl,
   (C8_handleUndo_restores_or_noop (some exC8u) "other" exC5).2.1 exC8u rfl (by decide),
   (C8_handleUndo_restores_or_noop (some exC8u) "sess1" exC5).2.2 exC8u rfl rfl⟩

-- ===== conversation-tree adapter (C6, C10) =====

/-- `getNodeType` from the adapter: `system` and `user` map to themselves,
`assistant` and `tool` to `assistant` (the `default` arm of the switch is
unreachable for the four roles modelled). -/
def getNodeType : Role → String
  | Role.system => "system"
  | Role.user => "user"
  | Role.assistant => "assistant"
  | Role.tool => "assistant"

/-- `TreeNodeData` from the adapter. -/
structure TreeNodeData where
  message : Msg
  type : String
  isActivePath : Bool
  branchIndex : Nat
  branchCount : Nat
  hasChildren : Bool
  childrenCount : Nat
  depth : Nat
  deriving DecidableEq, Repr

/-- A ReactFlow node as built by `createNode`; positions are exact
rationals. -/
structure ConversationNode where
  id : String
  type : String
  position : ℚ × ℚ
  data : TreeNodeData
  deriving DecidableEq, Repr

/-- `ConversationEdgeData` from the adapter. -/
structure ConversationEdgeData where
  isActivePath : Bool
  branchIndex : Nat
  deriving DecidableEq, Repr

/-- A ReactFlow edge as built by `createEdge`. -/
structure ConversationEdge where
  id : String
  source : String
  target : String
  type : String
  data : ConversationEdgeData
  animated : Bool
  deriving DecidableEq, Repr

/-- `ConversationTree` from the adapter. -/
structure ConversationTree where
  nodes : List ConversationNode
  edges : List ConversationEdge
  rootId : Option String
  activeLeafId : Option String
  activePathIds : Finset String
  deriving DecidableEq

/-- `createNode`: the node id is the message id, the position is filled in
later by the layout. -/
def createNode (message : Msg) (isActivePath : Bool) (branchIndex branchCount : Nat)
    (hasChildren : Bool) (childrenCount depth : Nat) : ConversationNode :=
  ⟨message.id, getNodeType message.role, ((0 : ℚ), (0 : ℚ)),
   ⟨message, getNodeType message.role, isActivePath, branchIndex, branchCount,
    hasChildren, childrenCount, depth⟩⟩

/-- `createEdge`: the edge id is `source->target`; the type encodes the
active/branch/default distinction. -/
def createEdge (sourceId targetId : String) (isActivePath : Bool) (branchIndex : Nat) :
    ConversationEdge :=
  ⟨sourceId ++ "->" ++ targetId, sourceId, targetId,
   if isActivePath then "activePath" else if 0 < branchIndex then "branch" else "default",
   ⟨isActivePath, branchIndex⟩, false⟩

/-- `buildActivePathIds`: every primary message is active, and for a primary
message with a fork entry the branch currently stored at `position` is
active too; `lists[position]` is `undefined` (no active branch) when
`position` is out of range.  `activeStep` is the loop body. -/
def activeStep (s : Session) (acc : Finset String) (m : Msg) : Finset String :=
  let acc1 := insert m.id acc
  match lookupFork (forksOf s) m.id with
  | some fd =>
    match fd.lists[fd.position]? with
    | some activeBranch =>
      activeBranch.messages.foldl (fun a bm => insert bm.id a) acc1
    | none => acc1
  | none => acc1

def buildActivePathIds (s : Session) : Finset String :=
  s.messages.foldl (activeStep s) ∅

/-- `forkData && forkData.lists.length > 1`: whether a looked-up entry
counts as a real fork. -/
def hasForkB (nested : Option ForkData) : Bool :=
  match nested with
  | some nfd => 1 < nfd.lists.length
  | none => false

/-- `hasFork ? forkData.lists.length : 1` (the `branchCount` field of a
primary-chain node). -/
def forkBranchCount (nested : Option ForkData) : Nat :=
  match nested with
  | some nfd => if 1 < nfd.lists.length then nfd.lists.length else 1
  | none => 1

/-- `hasFork ? forkData.lists.length : (hasNext ? 1 : 0)` (the
`childrenCount` field). -/
def forkChildrenCount (nested : Option ForkData) (hasNext : Bool) : Nat :=
  match nested with
  | some nfd => if 1 < nfd.lists.length then nfd.lists.length
                else if hasNext then 1 else 0
  | none => if hasNext then 1 else 0

/-- `processForks` and its two nested loops, as a pair of fuel-indexed
loop functions (`.1` the outer loop over the branches of one entry, `.2`
the message loop of one branch).  `avail` is the association list of fork
entries not yet processed: each entry is looked up there and removed when
descended into, which both bounds the recursion and mirrors the code's
behaviour on every session in which each entry is reached at most once
(the JS consults the full hash and diverges on cyclic fork structures;
under the unique-id hypotheses of the theorems below an entry's key
message occurs once, so the entry is looked up at most once and the two
readings agree).  Every call steps the fuel down, so the canonical fuel of
`sessionToConversationTree` is a bound on the total number of loop
iterations.  Each loop returns the remaining entries, the emitted nodes
and the emitted edges, in emission order. -/
def procPair : Nat →
    (Finset String → List (String × ForkData) → String → Nat → List Branch →
      Nat → Nat → Nat →
      List (String × ForkData) × List ConversationNode × List ConversationEdge)
    × (Finset String → List (String × ForkData) → String → Bool → Nat → Nat →
      Nat → List Msg →
      List (String × ForkData) × List ConversationNode × List ConversationEdge)
  | 0 =>
    (fun _ avail _ _ _ _ _ _ => (avail, [], []),
     fun _ avail _ _ _ _ _ _ => (avail, [], []))
  | fuel + 1 =>
    (fun apIds avail parentMessageId branchIndex lists position branchCount
        parentDepth =>
      match lists with
      | [] => (avail, [], [])
      | branch :: rest =>
        let r1 := (procPair fuel).2 apIds avail parentMessageId
          (branchIndex == position) branchIndex branchCount (parentDepth + 1)
          branch.messages
        let r2 := (procPair fuel).1 apIds r1.1 parentMessageId (branchIndex + 1)
          rest position branchCount parentDepth
        (r2.1, r1.2.1 ++ r2.2.1, r1.2.2 ++ r2.2.2),
     fun apIds avail prevNodeId isActiveBranch branchIndex branchCount depth
        msgs =>
      match msgs with
      | [] => (avail, [], [])
      | message :: restMsgs =>
        let isActivePath := isActiveBranch && decide (message.id ∈ apIds)
        let nested := lookupFork avail message.id
        let node := createNode message isActivePath branchIndex branchCount
          (!restMsgs.isEmpty || hasForkB nested)
          (forkChildrenCount nested (!restMsgs.isEmpty)) depth
        let edge := createEdge prevNodeId message.id isActivePath branchIndex
        match nested with
        | some nfd =>
          if 1 < nfd.lists.length then
            let avail1 := avail.eraseP (fun p => p.1 == message.id)
            let r1 := (procPair fuel).1 apIds avail1 message.id 0 nfd.lists
              nfd.position nfd.lists.length depth
            let r2 := (procPair fuel).2 apIds r1.1 message.id isActiveBranch
              branchIndex branchCount (depth + 1) restMsgs
            (r2.1, node :: r1.2.1 ++ r2.2.1, edge :: r1.2.2 ++ r2.2.2)
          else
            let r2 := (procPair fuel).2 apIds avail message.id isActiveBranch
              branchIndex branchCount (depth + 1) restMsgs
            (r2.1, node :: r2.2.1, edge :: r2.2.2)
        | none =>
          let r2 := (procPair fuel).2 apIds avail message.id isActiveBranch
            branchIndex branchCount (depth + 1) restMsgs
          (r2.1, node :: r2.2.1, edge :: r2.2.2))

/-- The branch loop of `processForks` (`.1` of `procPair`). -/
def procForks (fuel : Nat) (apIds : Finset String)
    (avail : List (String × ForkData)) (parentMessageId : String)
    (branchIndex : Nat) (lists : List Branch)
    (position branchCount parentDepth : Nat) :
    List (String × ForkData) × List ConversationNode × List ConversationEdge :=
  (procPair fuel).1 apIds avail parentMessageId branchIndex lists position
    branchCount parentDepth

/-- The message loop of one branch of `processForks` (`.2` of
`procPair`). -/
def procBranch (fuel : Nat) (apIds : Finset String)
    (avail : List (String × ForkData)) (prevNodeId : String)
    (isActiveBranch : Bool) (branchIndex branchCount depth : Nat)
    (msgs : List Msg) :
    List (String × ForkData) × List ConversationNode × List ConversationEdge :=
  (procPair fuel).2 apIds avail prevNodeId isActiveBranch branchIndex
    branchCount depth msgs

/-- The primary-chain loop of `sessionToConversationTree` (step 2): a node
per primary message, an edge from the previous node when there is one
(`if (prevNodeId)` — a null previous node, and also an empty-string id,
which is falsy, emit no edge), and a `processForks` descent for messages
with a real fork. -/
def buildMain (fuel : Nat) (apIds : Finset String) :
    List (String × ForkData) → Option String → Nat → List Msg →
    List (String × ForkData) × List ConversationNode × List ConversationEdge
  | avail, _, _, [] => (avail, [], [])
  | avail, prev, i, message :: rest =>
    let isActivePath := decide (message.id ∈ apIds)
    let nested := lookupFork avail message.id
    let node := createNode message isActivePath 0 (forkBranchCount nested)
      (!rest.isEmpty || hasForkB nested)
      (forkChildrenCount nested (!rest.isEmpty)) i
    let edges0 : List ConversationEdge :=
      match prev with
      | some pid => if pid = "" then [] else [createEdge pid message.id isActivePath 0]
      | none => []
    match nested with
    | some nfd =>
      if 1 < nfd.lists.length then
        let avail1 := avail.eraseP (fun p => p.1 == message.id)
        let r1 := procForks fuel apIds avail1 message.id 0 nfd.lists nfd.position
          nfd.lists.length i
        let r2 := buildMain fuel apIds r1.1 (some message.id) (i + 1) rest
        (r2.1, node :: r1.2.1 ++ r2.2.1, edges0 ++ r1.2.2 ++ r2.2.2)
      else
        let r2 := buildMain fuel apIds avail (some message.id) (i + 1) rest
        (r2.1, node :: r2.2.1, edges0 ++ r2.2.2)
    | none =>
      let r2 := buildMain fuel apIds avail (some message.id) (i + 1) rest
      (r2.1, node :: r2.2.1, edges0 ++ r2.2.2)

/-- The running `activeLeafId` of the primary-chain loop: the id of the
last primary message on the active path. -/
def mainActiveLeaf (apIds : Finset String) : List Msg → Option String → Option String
  | [], acc => acc
  | m :: rest, acc =>
    mainActiveLeaf apIds rest (if m.id ∈ apIds then some m.id else acc)

/-- Step 3 of `sessionToConversationTree`: when the last primary message
has a fork entry with at least one branch, the leaf is the last message of
the branch stored at `position` (out-of-range positions give the empty
list via `?.` and `|| []`, keeping the loop's value); otherwise the last
primary message itself. -/
def finalActiveLeaf (s : Session) (mainLeaf : Option String) : Option String :=
  match s.messages.getLast? with
  | none => mainLeaf
  | some lastMessage =>
    match lookupFork (forksOf s) lastMessage.id with
    | some lastFork =>
      if 0 < lastFork.lists.length then
        let activeBranchMessages := ((lastFork.lists[lastFork.position]?).map (·.messages)).getD []
        match activeBranchMessages.getLast? with
        | some lastB => some lastB.id
        | none => mainLeaf
      else some lastMessage.id
    | none => some lastMessage.id

/-- The canonical fuel: one unit per primary message, per fork entry, per
branch and per branch message, which bounds the total number of loop
iterations of the adapter on any session in which each entry is reached at
most once. -/
def adapterFuel (s : Session) : Nat :=
  s.messages.length +
    (forksOf s).foldl (fun a p =>
      a + 1 + p.2.lists.foldl (fun b br => b + 1 + br.messages.length) 0) 0 + 1

/-- `sessionToConversationTree`: empty sessions give the empty tree;
otherwise the primary chain and its forks are emitted, `rootId` is the
first primary id (`|| null` turns an empty-string id into `null`), and
`activeLeafId` is the step-3 recomputation seeded with the loop value. -/
def sessionToConversationTree (s : Session) : ConversationTree :=
  if s.messages.isEmpty then ⟨[], [], none, none, ∅⟩
  else
    let apIds := buildActivePathIds s
    let r := buildMain (adapterFuel s) apIds (forksOf s) none 0 s.messages
    let rootId := match s.messages.head? with
      | some m => if m.id = "" then none else some m.id
      | none => none
    ⟨r.2.1, r.2.2, rootId,
     finalActiveLeaf s (mainActiveLeaf apIds s.messages none), apIds⟩

/-- The ids of a node list, in emission order. -/
def nodeIds (ns : List ConversationNode) : List String := ns.map (·.id)

/-- Modelled from the spec's words for C6: an out-of-range `activeIndex`
is "treated as position 0 (defensive clamp)", so the active-branch slot is
read at the clamped index. -/
def clampedPosition (fd : ForkData) : Nat :=
  if fd.position < fd.lists.length then fd.position else 0

/-- Modelled from the spec's words for C6: `buildActivePathIds` with the
defensive clamp the spec describes. -/
def buildActivePathIdsClamped (s : Session) : Finset String :=
  s.messages.foldl (fun acc m =>
    let acc1 := insert m.id acc
    match lookupFork (forksOf s) m.id with
    | some fd =>
      match fd.lists[clampedPosition fd]? with
      | some activeBranch =>
        activeBranch.messages.foldl (fun a bm => insert bm.id a) acc1
      | none => acc1
    | none => acc1) ∅

def exC6fd : ForkData :=
  ⟨[⟨"L1", [⟨"b1", Role.assistant⟩]⟩, ⟨"L2", [⟨"b2", Role.assistant⟩]⟩], 7⟩

def exC6 : Session :=
  ⟨[⟨"m", Role.user⟩], some [("m", exC6fd)], none⟩

/-- C6 counterexample: `exC6` has one fork entry whose `position` 7 is out
of range for its two branches.  Under the spec's clamp-to-0 reading the
first branch would be active (`b1` on the active path and the active
leaf); the code instead treats the entry as having no active branch: no
branch id enters the active-path set, the active leaf stays the primary
message `m`, and every emitted branch node is inactive. -/
theorem C6_counterexample :
    ("b1" ∈ buildActivePathIdsClamped exC6 ∧
     "b1" ∉ (sessionToConversationTree exC6).activePathIds) ∧
    ((sessionToConversationTree exC6).activeLeafId = some "m" ∧
     (sessionToConversationTree exC6).activeLeafId ≠ some "b1") ∧
    (∀ n ∈ (sessionToConversationTree exC6).nodes,
      n.id = "b1" ∨ n.id = "b2" → n.data.isActivePath = false) := by
  decide

theorem lookupFork_of_mem_nodup {forks : List (String × ForkData)} {k : String}
    {fd : ForkData} (hN : (forks.map (fun p : String × ForkData => p.1)).Nodup)
    (h : (k, fd) ∈ forks) : lookupFork forks k = some fd := by
  induction forks with
  | nil => cases h
  | cons p rest ih =>
    rcases List.mem_cons.1 h with h1 | h1
    · rw [← h1]
      exact lookupFork_cons_self k fd rest
    · have hk : k ∈ rest.map (fun p : String × ForkData => p.1) :=
        List.mem_map.2 ⟨(k, fd), h1, rfl⟩
      have hne : p.1 ≠ k := by
        intro he
        exact (List.nodup_cons.1 hN).1 (by simpa [he] using hk)
      have : lookupFork (p :: rest) k = lookupFork rest k := by
        unfold lookupFork
        rw [List.find?_cons_of_neg]
        simp [hne]
      rw [this]
      exact ih (List.nodup_cons.1 hN).2 h1

theorem forksBranchIds_cons (p : String × ForkData)
    (rest : List (String × ForkData)) :
    forksBranchIds (p :: rest) = forkBranchMsgIds p.2 ++ forksBranchIds rest := by
  simp [forksBranchIds]

/-- Branch-id lists of distinct fork entries are disjoint when the global
branch-id list has no duplicates. -/
theorem forks_disjoint {forks : List (String × ForkData)} {k k' : String}
    {fd fd' : ForkData} (hN : (forksBranchIds forks).Nodup)
    (h1 : (k, fd) ∈ forks) (h2 : (k', fd') ∈ forks) (hkk : k ≠ k')
    {x : String} (hx : x ∈ forkBranchMsgIds fd) (hx' : x ∈ forkBranchMsgIds fd') :
    False := by
  induction forks with
  | nil => cases h1
  | cons p rest ih =>
    rw [forksBranchIds_cons] at hN
    have hdisj := (List.nodup_append.1 hN).2.2
    rcases List.mem_cons.1 h1 with e1 | m1 <;> rcases List.mem_cons.1 h2 with e2 | m2
    · exact hkk ((congrArg Prod.fst e1).trans (congrArg Prod.fst e2).symm)
    · have hxp : x ∈ forkBranchMsgIds p.2 := by rw [← e1]; exact hx
      have hxr : x ∈ forksBranchIds rest := forkBranchMsgIds_subset m2 x hx'
      exact hdisj hxp hxr
    · have hxp : x ∈ forkBranchMsgIds p.2 := by rw [← e2]; exact hx'
      have hxr : x ∈ forksBranchIds rest := forkBranchMsgIds_subset m1 x hx
      exact hdisj hxp hxr
    · exact ih (List.nodup_append.1 hN).2.1 m1 m2

theorem foldl_insert_ids_mem {x : String} :
    ∀ (bms : List Msg) (acc : Finset String),
      (x ∈ bms.foldl (fun a bm => insert bm.id a) acc ↔ x ∈ acc ∨ x ∈ msgIds bms) := by
  intro bms
  induction bms with
  | nil => intro acc; simp [msgIds]
  | cons b rest ih =>
    intro acc
    rw [List.foldl_cons, ih]
    simp [msgIds, Finset.mem_insert]
    tauto

/-- What one step of the `buildActivePathIds` loop adds. -/
theorem mem_activeStep {s : Session} {acc : Finset String} {m : Msg} {x : String} :
    x ∈ activeStep s acc m ↔
      x ∈ acc ∨ x = m.id ∨
        ∃ fd br, lookupFork (forksOf s) m.id = some fd ∧
          fd.lists[fd.position]? = some br ∧ x ∈ msgIds br.messages := by
  simp only [activeStep]
  rcases h1 : lookupFork (forksOf s) m.id with _ | fd
  · simp [h1, Finset.mem_insert]
    tauto
  · rcases h2 : fd.lists[fd.position]? with _ | br
    · simp [h1, h2, Finset.mem_insert]
      tauto
    · simp only [h1, h2]
      rw [foldl_insert_ids_mem]
      simp [Finset.mem_insert, h2]
      tauto

theorem mem_buildAP_foldl {s : Session} {x : String} :
    ∀ (msgs : List Msg) (acc : Finset String),
      (x ∈ msgs.foldl (activeStep s) acc ↔
        x ∈ acc ∨ ∃ m ∈ msgs, (x = m.id ∨
          ∃ fd br, lookupFork (forksOf s) m.id = some fd ∧
            fd.lists[fd.position]? = some br ∧ x ∈ msgIds br.messages)) := by
  intro msgs
  induction msgs with
  | nil => intro acc; simp
  | cons a rest ih =>
    intro acc
    rw [List.foldl_cons, ih, mem_activeStep]
    constructor
    · rintro ((h | h | h) | ⟨m, hm, h⟩)
      · exact Or.inl h
      · exact Or.inr ⟨a, List.mem_cons_self a rest, Or.inl h⟩
      · exact Or.inr ⟨a, List.mem_cons_self a rest, Or.inr h⟩
      · exact Or.inr ⟨m, List.mem_cons_of_mem a hm, h⟩
    · rintro (h | ⟨m, hm, h⟩)
      · exact Or.inl (Or.inl h)
      · rcases List.mem_cons.1 hm with rfl | hm'
        · rcases h with h | h
          · exact Or.inl (Or.inr (Or.inl h))
          · exact Or.inl (Or.inr (Or.inr h))
        · exact Or.inr ⟨m, hm', h⟩

/-- Membership in the active-path set, characterised. -/
theorem mem_buildActivePathIds {s : Session} {x : String} :
    x ∈ buildActivePathIds s ↔
      ∃ m ∈ s.messages, (x = m.id ∨
        ∃ fd br, lookupFork (forksOf s) m.id = some fd ∧
          fd.lists[fd.position]? = some br ∧ x ∈ msgIds br.messages) := by
  unfold buildActivePathIds
  rw [mem_buildAP_foldl]
  simp

theorem main_mem_buildActivePathIds {s : Session} {m : Msg}
    (h : m ∈ s.messages) : m.id ∈ buildActivePathIds s :=
  mem_buildActivePathIds.2 ⟨m, h, Or.inl rfl⟩

/-- Both loops only mark a node or edge as on the active path when the
message's id is in the active-path set: `isActivePath` is
`isActiveBranch && activePathIds.has(message.id)`. -/
theorem procPair_active (apIds : Finset String) : ∀ fuel : Nat,
    (∀ avail pid bi lists pos bc pd,
      (∀ n ∈ ((procPair fuel).1 apIds avail pid bi lists pos bc pd).2.1,
        n.data.isActivePath = true → n.id ∈ apIds) ∧
      (∀ e ∈ ((procPair fuel).1 apIds avail pid bi lists pos bc pd).2.2,
        e.data.isActivePath = true → e.target ∈ apIds))
    ∧ (∀ avail prev act bi bc d msgs,
      (∀ n ∈ ((procPair fuel).2 apIds avail prev act bi bc d msgs).2.1,
        n.data.isActivePath = true → n.id ∈ apIds) ∧
      (∀ e ∈ ((procPair fuel).2 apIds avail prev act bi bc d msgs).2.2,
        e.data.isActivePath = true → e.target ∈ apIds)) := by
  intro fuel
  induction fuel with
  | zero =>
    constructor
    · intro avail pid bi lists pos bc pd
      constructor <;> intro z hz <;> simp [procPair] at hz
    · intro avail prev act bi bc d msgs
      constructor <;> intro z hz <;> simp [procPair] at hz
  | succ fuel ih =>
    constructor
    · intro avail pid bi lists pos bc pd
      cases lists with
      | nil =>
        constructor <;> intro z hz <;> simp [procPair] at hz
      | cons branch rest =>
        simp only [procPair]
        constructor
        · intro n hn
          rcases List.mem_append.1 hn with h | h
          · exact (ih.2 _ _ _ _ _ _ _).1 n h
          · exact (ih.1 _ _ _ _ _ _ _).1 n h
        · intro e he
          rcases List.mem_append.1 he with h | h
          · exact (ih.2 _ _ _ _ _ _ _).2 e h
          · exact (ih.1 _ _ _ _ _ _ _).2 e h
    · intro avail prev act bi bc d msgs
      cases msgs with
      | nil =>
        constructor <;> intro z hz <;> simp [procPair] at hz
      | cons message restMsgs =>
        simp only [procPair]
        rcases hnest : lookupFork avail message.id with _ | nfd
        · simp only [hnest]
          constructor
          · intro n hn
            rcases List.mem_cons.1 hn with h | h
            · subst h
              intro ha
              simp only [createNode] at ha
              exact of_decide_eq_true (Bool.and_eq_true .. ▸ ha).2
            · exact (ih.2 _ _ _ _ _ _ _).1 n h
          · intro e he
            rcases List.mem_cons.1 he with h | h
            · subst h
              intro ha
              simp only [createEdge] at ha
              exact of_decide_eq_true (Bool.and_eq_true .. ▸ ha).2
            · exact (ih.2 _ _ _ _ _ _ _).2 e h
        · simp only [hnest]
          by_cases hlen : 1 < nfd.lists.length
          · simp only [if_pos hlen]
            constructor
            · intro n hn
              rcases List.mem_cons.1 hn with h | h
              · subst h
                intro ha
                simp only [createNode] at ha
                exact of_decide_eq_true (Bool.and_eq_true .. ▸ ha).2
              · rcases List.mem_append.1 h with h' | h'
                · exact (ih.1 _ _ _ _ _ _ _).1 n h'
                · exact (ih.2 _ _ _ _ _ _ _).1 n h'
            · intro e he
              rcases List.mem_cons.1 he with h | h
              · subst h
                intro ha
                simp only [createEdge] at ha
                exact of_decide_eq_true (Bool.and_eq_true .. ▸ ha).2
              · rcases List.mem_append.1 h with h' | h'
                · exact (ih.1 _ _ _ _ _ _ _).2 e h'
                · exact (ih.2 _ _ _ _ _ _ _).2 e h'
          · simp only [if_neg hlen]
            constructor
            · intro n hn
              rcases List.mem_cons.1 hn with h | h
              · subst h
                intro ha
                simp only [createNode] at ha
                exact of_decide_eq_true (Bool.and_eq_true .. ▸ ha).2
              · exact (ih.2 _ _ _ _ _ _ _).1 n h
            · intro e he
              rcases List.mem_cons.1 he with h | h
              · subst h
                intro ha
                simp only [createEdge] at ha
                exact of_decide_eq_true (Bool.and_eq_true .. ▸ ha).2
              · exact (ih.2 _ _ _ _ _ _ _).2 e h

/-- The primary-chain loop marks a node or edge active only when the
message's id is in the active-path set. -/
theorem buildMain_active (fuel : Nat) (apIds : Finset String) :
    ∀ (msgs : List Msg) (avail : List (String × ForkData)) (prev : Option String)
      (i : Nat),
      (∀ n ∈ (buildMain fuel apIds avail prev i msgs).2.1,
        n.data.isActivePath = true → n.id ∈ apIds) ∧
      (∀ e ∈ (buildMain fuel apIds avail prev i msgs).2.2,
        e.data.isActivePath = true → e.target ∈ apIds) := by
  intro msgs
  induction msgs with
  | nil =>
    intro avail prev i
    constructor <;> intro z hz <;> simp [buildMain] at hz
  | cons message rest ih =>
    intro avail prev i
    simp only [buildMain]
    have hnode : ∀ (bcv : Nat) (hc : Bool) (cc i' : Nat),
        (createNode message (decide (message.id ∈ apIds)) 0 bcv hc cc
          i').data.isActivePath = true → message.id ∈ apIds := by
      intro bcv hc cc i' ha
      simp only [createNode] at ha
      exact of_decide_eq_true ha
    have hedge : ∀ e ∈ ((match prev with
        | some pid => if pid = "" then []
          else [createEdge pid message.id (decide (message.id ∈ apIds)) 0]
        | none => []) : List ConversationEdge),
        e.data.isActivePath = true → e.target ∈ apIds := by
      rcases prev with _ | pid
      · intro e he; cases he
      · intro e he
        by_cases hp : pid = ""
        · simp only [if_pos hp] at he
          cases he
        · simp only [if_neg hp] at he
          rcases List.mem_cons.1 he with h | h
          · subst h
            intro ha
            simp only [createEdge] at ha
            exact of_decide_eq_true ha
          · cases h
    rcases hnest : lookupFork avail message.id with _ | nfd
    · simp only [hnest]
      constructor
      · intro n hn
        rcases List.mem_cons.1 hn with h | h
        · subst h
          exact hnode _ _ _ _
        · exact (ih _ _ _).1 n h
      · intro e he
        rcases List.mem_append.1 he with h | h
        · exact hedge e h
        · exact (ih _ _ _).2 e h
    · by_cases hlen : 1 < nfd.lists.length
      · simp only [hnest, if_pos hlen]
        constructor
        · intro n hn
          rcases List.mem_cons.1 hn with h | h
          · subst h
            exact hnode _ _ _ _
          · rcases List.mem_append.1 h with h' | h'
            · exact ((procPair_active apIds fuel).1 _ _ _ _ _ _ _).1 n h'
            · exact (ih _ _ _).1 n h'
        · intro e he
          rcases List.mem_append.1 he with h | h
          · rcases List.mem_append.1 h with h' | h'
            · exact hedge e h'
            · exact ((procPair_active apIds fuel).1 _ _ _ _ _ _ _).2 e h'
          · exact (ih _ _ _).2 e h
      · simp only [hnest, if_neg hlen]
        constructor
        · intro n hn
          rcases List.mem_cons.1 hn with h | h
          · subst h
            exact hnode _ _ _ _
          · exact (ih _ _ _).1 n h
        · intro e he
          rcases List.mem_append.1 he with h | h
          · exact hedge e h
          · exact (ih _ _ _).2 e h

theorem mainActiveLeaf_getLast (apIds : Finset String) :
    ∀ (msgs : List Msg) (acc : Option String), (∀ m ∈ msgs, m.id ∈ apIds) →
      msgs ≠ [] →
      mainActiveLeaf apIds msgs acc = (msgs.getLast?).map (fun m : Msg => m.id) := by
  intro msgs
  induction msgs with
  | nil => intro acc _ h; exact absurd rfl h
  | cons m rest ih =>
    intro acc hall _
    cases rest with
    | nil =>
      have h1 : mainActiveLeaf apIds [m] acc =
          (if m.id ∈ apIds then some m.id else acc) := rfl
      rw [h1, if_pos (hall m (List.mem_cons_self m []))]
      simp
    | cons b bs =>
      have h1 : mainActiveLeaf apIds (m :: b :: bs) acc =
          mainActiveLeaf apIds (b :: bs) (if m.id ∈ apIds then some m.id else acc) := rfl
      rw [h1, ih _ (fun x hx => hall x (List.mem_cons_of_mem m hx)) (by simp),
        List.getLast?_cons_cons]

theorem sessionToConversationTree_of_ne {s : Session}
    (h : s.messages.isEmpty = false) :
    sessionToConversationTree s =
      ⟨(buildMain (adapterFuel s) (buildActivePathIds s) (forksOf s) none 0
          s.messages).2.1,
       (buildMain (adapterFuel s) (buildActivePathIds s) (forksOf s) none 0
          s.messages).2.2,
       (match s.messages.head? with
        | some m => if m.id = "" then none else some m.id
        | none => none),
       finalActiveLeaf s (mainActiveLeaf (buildActivePathIds s) s.messages none),
       buildActivePathIds s⟩ := by
  unfold sessionToConversationTree
  rw [if_neg (by simp [h])]

theorem sessionToConversationTree_of_empty {s : Session}
    (h : s.messages.isEmpty = true) :
    sessionToConversationTree s = ⟨[], [], none, none, ∅⟩ := by
  unfold sessionToConversationTree
  rw [if_pos (by simp_all)]

/-- C6 (amended): a fork entry whose stored `position` is out of range is
treated as having *no* active branch, not as active at position 0: none of
its branch-message ids enters the active-path set; if its fork point is
the last primary message, the active leaf is that fork point itself (not
the head branch's last message); and since a node or edge is only
rendered active when its id is in the active-path set, every node and edge
of the entry's branches is rendered inactive. -/
theorem C6_adapter_out_of_range_amended (s : Session) (k : String) (fd : ForkData)
    (hU : UniqueIds s)
    (hK : ((forksOf s).map (fun p : String × ForkData => p.1)).Nodup)
    (hmem : (k, fd) ∈ forksOf s)
    (hout : fd.lists.length ≤ fd.position) :
    (∀ b ∈ forkBranchMsgIds fd, b ∉ (sessionToConversationTree s).activePathIds)
    ∧ ((s.messages.getLast?).map (fun m : Msg => m.id) = some k →
        (sessionToConversationTree s).activeLeafId = some k)
    ∧ (∀ n ∈ (sessionToConversationTree s).nodes, n.data.isActivePath = true →
        n.id ∈ (sessionToConversationTree s).activePathIds)
    ∧ (∀ e ∈ (sessionToConversationTree s).edges, e.data.isActivePath = true →
        e.target ∈ (sessionToConversationTree s).activePathIds) := by
  have hbnotin : ∀ b ∈ forkBranchMsgIds fd, b ∉ buildActivePathIds s := by
    intro b hb hbin
    rcases mem_buildActivePathIds.1 hbin with ⟨m, hm, hcase⟩
    rcases hcase with hcase | ⟨fd', br, hlk, hbr, hxb⟩
    · have hbm : b ∈ msgIds s.messages := by
        rw [hcase]
        exact List.mem_map.2 ⟨m, hm, rfl⟩
      have hbf : b ∈ forksBranchIds (forksOf s) :=
        forkBranchMsgIds_subset hmem b hb
      exact List.disjoint_of_nodup_append hU hbm hbf
    · by_cases hkk : m.id = k
      · have hfix : lookupFork (forksOf s) k = some fd :=
          lookupFork_of_mem_nodup hK hmem
        rw [hkk, hfix] at hlk
        have hfd : fd' = fd := (Option.some.inj hlk).symm
        subst hfd
        rw [List.getElem?_eq_none hout] at hbr
        exact Option.noConfusion hbr
      · have hmem' : (m.id, fd') ∈ forksOf s := lookupFork_mem hlk
        have hNf : (forksBranchIds (forksOf s)).Nodup :=
          (List.nodup_append.1 hU).2.1
        have hbrmem : br ∈ fd'.lists := by
          apply List.get?_mem
          rw [List.get?_eq_getElem?]
          exact hbr
        have hbfd' : b ∈ forkBranchMsgIds fd' := by
          unfold forkBranchMsgIds
          exact List.mem_flatten.2
            ⟨msgIds br.messages, List.mem_map.2 ⟨br, hbrmem, rfl⟩, hxb⟩
        exact forks_disjoint hNf hmem hmem' (fun he => hkk he.symm) hb hbfd'
  rcases hE : s.messages.isEmpty with _ | _
  case true =>
    rw [sessionToConversationTree_of_empty hE]
    refine ⟨fun b _ hbin => (Finset.not_mem_empty b) hbin, ?_, ?_, ?_⟩
    · intro hlast
      rw [List.isEmpty_iff.1 hE] at hlast
      simp at hlast
    · intro n hn; cases hn
    · intro e he; cases he
  case false =>
    rw [sessionToConversationTree_of_ne hE]
    refine ⟨hbnotin, ?_, ?_, ?_⟩
    · intro hlast
      have hne : s.messages ≠ [] := by
        intro h0
        rw [h0] at hE
        simp at hE
      have hall : ∀ m ∈ s.messages, m.id ∈ buildActivePathIds s :=
        fun m hm => main_mem_buildActivePathIds hm
      have hml : mainActiveLeaf (buildActivePathIds s) s.messages none = some k := by
        rw [mainActiveLeaf_getLast _ _ _ hall hne]
        exact hlast
      rcases hgl : s.messages.getLast? with _ | lm
      · rw [hgl] at hlast
        simp at hlast
      · have hlmid : lm.id = k := by
          rw [hgl] at hlast
          exact Option.some.inj hlast
        show finalActiveLeaf s _ = some k
        have hfix : lookupFork (forksOf s) lm.id = some fd := by
          rw [hlmid]
          exact lookupFork_of_mem_nodup hK hmem
        unfold finalActiveLeaf
        simp only [hgl, hfix]
        by_cases hlen0 : 0 < fd.lists.length
        · rw [if_pos hlen0, List.getElem?_eq_none hout]
          simp only [Option.map_none', Option.getD_none, List.getLast?_nil]
          exact hml
        · rw [if_neg hlen0, hlmid]
    · exact (buildMain_active (adapterFuel s) (buildActivePathIds s) s.messages
        (forksOf s) none 0).1
    · exact (buildMain_active (adapterFuel s) (buildActivePathIds s) s.messages
        (forksOf s) none 0).2

/-- Witness for the amended C6 at the concrete out-of-range session
`exC6`. -/
theorem C6_adapter_out_of_range_amended_witness :
    (UniqueIds exC6 ∧
     ((forksOf exC6).map (fun p : String × ForkData => p.1)).Nodup ∧
     ("m", exC6fd) ∈ forksOf exC6 ∧
     exC6fd.lists.length ≤ exC6fd.position) ∧
    ((∀ b ∈ forkBranchMsgIds exC6fd,
        b ∉ (sessionToConversationTree exC6).activePathIds)
     ∧ ((exC6.messages.getLast?).map (fun m : Msg => m.id) = some "m" →
         (sessionToConversationTree exC6).activeLeafId = some "m")
     ∧ (∀ n ∈ (sessionToConversationTree exC6).nodes,
         n.data.isActivePath = true →
         n.id ∈ (sessionToConversationTree exC6).activePathIds)
     ∧ (∀ e ∈ (sessionToConversationTree exC6).edges,
         e.data.isActivePath = true →
         e.target ∈ (sessionToConversationTree exC6).activePathIds)) :=
  ⟨⟨by decide, by decide, by decide, by decide⟩,
   C6_adapter_out_of_range_amended exC6 "m" exC6fd (by decide) (by decide)
     (by decide) (by decide)⟩

/-- The branch-message ids of a branch list. -/
def branchesIds (lists : List Branch) : List String :=
  (lists.map (fun b => msgIds b.messages)).flatten

theorem branchesIds_eq (fd : ForkData) :
    branchesIds fd.lists = forkBranchMsgIds fd := rfl

theorem branchesIds_cons (b : Branch) (rest : List Branch) :
    branchesIds (b :: rest) = msgIds b.messages ++ branchesIds rest := by
  simp [branchesIds]

theorem lookupFork_cons (p : String × ForkData) (rest : List (String × ForkData))
    (k : String) :
    lookupFork (p :: rest) k =
      if p.1 == k then some p.2 else lookupFork rest k := by
  rcases hc : (p.1 == k) with _ | _
  · rw [if_neg (by simp [hc])]
    unfold lookupFork
    rw [List.find?_cons_of_neg (p := fun q : String × ForkData => q.1 == k) _
      (by simp [hc])]
  · rw [if_pos (by simp)]
    unfold lookupFork
    rw [List.find?_cons_of_pos (p := fun q : String × ForkData => q.1 == k) _ hc]
    rfl

theorem nodeIds_nil : nodeIds [] = [] := rfl

theorem nodeIds_cons (n : ConversationNode) (l : List ConversationNode) :
    nodeIds (n :: l) = n.id :: nodeIds l := rfl

theorem msgIds_cons (m : Msg) (l : List Msg) :
    msgIds (m :: l) = m.id :: msgIds l := rfl

theorem nodeIds_append (a b : List ConversationNode) :
    nodeIds (a ++ b) = nodeIds a ++ nodeIds b := by
  simp [nodeIds]

theorem coe_cons_ms (a : String) (l : List String) :
    ((a :: l : List String) : Multiset String) = a ::ₘ (l : Multiset String) :=
  rfl

theorem createNode_id (message : Msg) (b : Bool) (bi bc : Nat) (hc : Bool)
    (cc d : Nat) : (createNode message b bi bc hc cc d).id = message.id := rfl

/-- Removing a looked-up fork entry splits the available branch-id budget
exactly. -/
theorem forksBranchIds_eraseP_decomp {avail : List (String × ForkData)}
    {k : String} {fd : ForkData} (h : lookupFork avail k = some fd) :
    (forksBranchIds avail : Multiset String) =
      (forkBranchMsgIds fd : Multiset String) +
      (forksBranchIds (avail.eraseP (fun p => p.1 == k)) : Multiset String) := by
  induction avail with
  | nil => simp [lookupFork] at h
  | cons p rest ih =>
    rw [lookupFork_cons] at h
    by_cases hp : (p.1 == k) = true
    · rw [if_pos hp] at h
      have hfd : p.2 = fd := Option.some.inj h
      rw [List.eraseP_cons_of_pos (p := fun q : String × ForkData => q.1 == k) hp,
        forksBranchIds_cons, hfd]
      exact (Multiset.coe_add _ _).symm
    · rw [if_neg hp] at h
      rw [List.eraseP_cons_of_neg (p := fun q : String × ForkData => q.1 == k) (by simpa using hp),
        forksBranchIds_cons,
        forksBranchIds_cons, ← Multiset.coe_add, ← Multiset.coe_add, ih h,
        add_left_comm]

theorem budget_chain {A1 A2 B C1 C2 D E : Multiset String}
    (h1 : A1 + E ≤ C1 + D) (h2 : A2 + B ≤ C2 + E) :
    A1 + A2 + B ≤ C1 + C2 + D := by
  calc A1 + A2 + B = A1 + (A2 + B) := add_assoc _ _ _
    _ ≤ A1 + (C2 + E) := add_le_add_left h2 _
    _ = C2 + (A1 + E) := by rw [add_left_comm]
    _ ≤ C2 + (C1 + D) := add_le_add_left h1 _
    _ = C1 + C2 + D := by rw [add_left_comm, ← add_assoc]

theorem budget_chain2 {A1 A2 B R F E0 E : Multiset String}
    (h1 : A1 + E ≤ F + E0) (h2 : A2 + B ≤ R + E) :
    A1 + A2 + B ≤ R + (F + E0) := by
  calc A1 + A2 + B = A1 + (A2 + B) := add_assoc _ _ _
    _ ≤ A1 + (R + E) := add_le_add_left h2 _
    _ = R + (A1 + E) := by rw [add_left_comm]
    _ ≤ R + (F + E0) := add_le_add_left h1 _

/-- Budget invariant of the fork loops: the ids of the emitted nodes plus
the branch ids of the entries still available afterwards fit, with
multiplicity, inside the ids being iterated plus the branch ids of the
entries available before. -/
theorem procPair_budget : ∀ fuel : Nat,
    (∀ (apIds : Finset String) avail pid bi lists pos bc pd,
      (nodeIds ((procPair fuel).1 apIds avail pid bi lists pos bc pd).2.1 :
          Multiset String)
        + (forksBranchIds ((procPair fuel).1 apIds avail pid bi lists pos bc pd).1 :
          Multiset String)
        ≤ (branchesIds lists : Multiset String)
          + (forksBranchIds avail : Multiset String))
    ∧ (∀ (apIds : Finset String) avail prev act bi bc d msgs,
      (nodeIds ((procPair fuel).2 apIds avail prev act bi bc d msgs).2.1 :
          Multiset String)
        + (forksBranchIds ((procPair fuel).2 apIds avail prev act bi bc d msgs).1 :
          Multiset String)
        ≤ (msgIds msgs : Multiset String)
          + (forksBranchIds avail : Multiset String)) := by
  intro fuel
  induction fuel with
  | zero =>
    constructor <;> intros <;>
      simp only [procPair, nodeIds_nil, Multiset.coe_nil, zero_add] <;>
      exact le_add_self
  | succ fuel ih =>
    constructor
    · intro apIds avail pid bi lists pos bc pd
      cases lists with
      | nil =>
        simp only [procPair, nodeIds_nil, Multiset.coe_nil, zero_add]
        exact le_add_self
      | cons branch rest =>
        simp only [procPair]
        have h1 := ih.2 apIds avail pid (bi == pos) bi bc (pd + 1) branch.messages
        have h2 := ih.1 apIds
          ((procPair fuel).2 apIds avail pid (bi == pos) bi bc (pd + 1)
            branch.messages).1 pid (bi + 1) rest pos bc pd
        simp only [nodeIds_append, branchesIds_cons]
        exact budget_chain h1 h2
    · intro apIds avail prev act bi bc d msgs
      cases msgs with
      | nil =>
        simp only [procPair, nodeIds_nil, Multiset.coe_nil, zero_add]
        exact le_add_self
      | cons message restMsgs =>
        simp only [procPair]
        rcases hnest : lookupFork avail message.id with _ | nfd
        · simp only [hnest]
          have h2 := ih.2 apIds avail message.id act bi bc (d + 1) restMsgs
          exact Multiset.cons_le_cons message.id h2
        · by_cases hlen : 1 < nfd.lists.length
          · simp only [hnest, if_pos hlen]
            have hdec := forksBranchIds_eraseP_decomp hnest
            have h1 := ih.1 apIds (avail.eraseP (fun p => p.1 == message.id))
              message.id 0 nfd.lists nfd.position nfd.lists.length d
            have h2 := ih.2 apIds
              ((procPair fuel).1 apIds (avail.eraseP (fun p => p.1 == message.id))
                message.id 0 nfd.lists nfd.position nfd.lists.length d).1
              message.id act bi bc (d + 1) restMsgs
            rw [branchesIds_eq] at h1
            simp only [nodeIds_cons, nodeIds_append]
            rw [hdec]
            exact Multiset.cons_le_cons message.id (budget_chain2 h1 h2)
          · simp only [hnest, if_neg hlen]
            have h2 := ih.2 apIds avail message.id act bi bc (d + 1) restMsgs
            exact Multiset.cons_le_cons message.id h2

/-- Budget invariant of the primary-chain loop. -/
theorem buildMain_budget (fuel : Nat) (apIds : Finset String) :
    ∀ (msgs : List Msg) (avail : List (String × ForkData)) (prev : Option String)
      (i : Nat),
      (nodeIds (buildMain fuel apIds avail prev i msgs).2.1 : Multiset String)
        + (forksBranchIds (buildMain fuel apIds avail prev i msgs).1 :
          Multiset String)
        ≤ (msgIds msgs : Multiset String)
          + (forksBranchIds avail : Multiset String) := by
  intro msgs
  induction msgs with
  | nil =>
    intro avail prev i
    simp only [buildMain, nodeIds_nil, Multiset.coe_nil, zero_add]
    exact le_add_self
  | cons message rest ih =>
    intro avail prev i
    simp only [buildMain]
    rcases hnest : lookupFork avail message.id with _ | nfd
    · simp only [hnest]
      exact Multiset.cons_le_cons message.id (ih _ _ _)
    · by_cases hlen : 1 < nfd.lists.length
      · simp only [hnest, if_pos hlen]
        have hdec := forksBranchIds_eraseP_decomp hnest
        have h1 := (procPair_budget fuel).1 apIds
          (avail.eraseP (fun p => p.1 == message.id)) message.id 0 nfd.lists
          nfd.position nfd.lists.length i
        rw [branchesIds_eq] at h1
        have h2 := ih
          ((procPair fuel).1 apIds (avail.eraseP (fun p => p.1 == message.id))
            message.id 0 nfd.lists nfd.position nfd.lists.length i).1
          (some message.id) (i + 1)
        simp only [nodeIds_cons, nodeIds_append]
        rw [hdec]
        exact Multiset.cons_le_cons message.id (budget_chain2 h1 h2)
      · simp only [hnest, if_neg hlen]
        exact Multiset.cons_le_cons message.id (ih _ _ _)

theorem createEdge_target (a b : String) (c : Bool) (d : Nat) :
    (createEdge a b c d).target = b := rfl

theorem createEdge_source (a b : String) (c : Bool) (d : Nat) :
    (createEdge a b c d).source = a := rfl

/-- Every edge the fork loops emit points at an emitted node, and starts
either at the parent message passed in or at an emitted node. -/
theorem procPair_edges : ∀ fuel : Nat,
    (∀ (apIds : Finset String) avail pid bi lists pos bc pd,
      ∀ e ∈ ((procPair fuel).1 apIds avail pid bi lists pos bc pd).2.2,
        e.target ∈ nodeIds ((procPair fuel).1 apIds avail pid bi lists pos bc pd).2.1
        ∧ (e.source = pid ∨
           e.source ∈ nodeIds ((procPair fuel).1 apIds avail pid bi lists pos bc
             pd).2.1))
    ∧ (∀ (apIds : Finset String) avail prev act bi bc d msgs,
      ∀ e ∈ ((procPair fuel).2 apIds avail prev act bi bc d msgs).2.2,
        e.target ∈ nodeIds ((procPair fuel).2 apIds avail prev act bi bc d msgs).2.1
        ∧ (e.source = prev ∨
           e.source ∈ nodeIds ((procPair fuel).2 apIds avail prev act bi bc d
             msgs).2.1)) := by
  intro fuel
  induction fuel with
  | zero =>
    refine ⟨?_, ?_⟩ <;> intro _ _ _ _ _ _ _ _ e he <;> simp [procPair] at he
  | succ fuel ih =>
    constructor
    · intro apIds avail pid bi lists pos bc pd
      cases lists with
      | nil => intro e he; simp [procPair] at he
      | cons branch rest =>
        simp only [procPair]
        intro e he
        simp only [nodeIds_append]
        rcases List.mem_append.1 he with h | h
        · rcases (ih.2 _ _ _ _ _ _ _ _) e h with ⟨ht, hs⟩
          refine ⟨List.mem_append_left _ ht, ?_⟩
          rcases hs with hs | hs
          · exact Or.inl hs
          · exact Or.inr (List.mem_append_left _ hs)
        · rcases (ih.1 _ _ _ _ _ _ _ _) e h with ⟨ht, hs⟩
          refine ⟨List.mem_append_right _ ht, ?_⟩
          rcases hs with hs | hs
          · exact Or.inl hs
          · exact Or.inr (List.mem_append_right _ hs)
    · intro apIds avail prev act bi bc d msgs
      cases msgs with
      | nil => intro e he; simp [procPair] at he
      | cons message restMsgs =>
        simp only [procPair]
        rcases hnest : lookupFork avail message.id with _ | nfd
        · simp only [hnest]
          intro e he
          simp only [nodeIds_cons, createNode_id]
          rcases List.mem_cons.1 he with h | h
          · subst h
            exact ⟨List.mem_cons_self _ _, Or.inl rfl⟩
          · rcases (ih.2 _ _ _ _ _ _ _ _) e h with ⟨ht, hs⟩
            refine ⟨List.mem_cons_of_mem _ ht, ?_⟩
            rcases hs with hs | hs
            · exact Or.inr (by rw [hs]; exact List.mem_cons_self _ _)
            · exact Or.inr (List.mem_cons_of_mem _ hs)
        · by_cases hlen : 1 < nfd.lists.length
          · simp only [hnest, if_pos hlen]
            intro e he
            simp only [nodeIds_cons, nodeIds_append, createNode_id]
            rcases List.mem_cons.1 he with h | h
            · subst h
              exact ⟨List.mem_cons_self _ _, Or.inl rfl⟩
            · rcases List.mem_append.1 h with h' | h'
              · rcases (ih.1 _ _ _ _ _ _ _ _) e h' with ⟨ht, hs⟩
                refine ⟨List.mem_cons_of_mem _ (List.mem_append_left _ ht), ?_⟩
                rcases hs with hs | hs
                · exact Or.inr (by rw [hs]; exact List.mem_cons_self _ _)
                · exact Or.inr
                    (List.mem_cons_of_mem _ (List.mem_append_left _ hs))
              · rcases (ih.2 _ _ _ _ _ _ _ _) e h' with ⟨ht, hs⟩
                refine ⟨List.mem_cons_of_mem _ (List.mem_append_right _ ht), ?_⟩
                rcases hs with hs | hs
                · exact Or.inr (by rw [hs]; exact List.mem_cons_self _ _)
                · exact Or.inr
                    (List.mem_cons_of_mem _ (List.mem_append_right _ hs))
          · simp only [hnest, if_neg hlen]
            intro e he
            simp only [nodeIds_cons, createNode_id]
            rcases List.mem_cons.1 he with h | h
            · subst h
              exact ⟨List.mem_cons_self _ _, Or.inl rfl⟩
            · rcases (ih.2 _ _ _ _ _ _ _ _) e h with ⟨ht, hs⟩
              refine ⟨List.mem_cons_of_mem _ ht, ?_⟩
              rcases hs with hs | hs
              · exact Or.inr (by rw [hs]; exact List.mem_cons_self _ _)
              · exact Or.inr (List.mem_cons_of_mem _ hs)

/-- Every edge the primary-chain loop emits points at an emitted node, and
starts either at the previous-node id passed in or at an emitted node. -/
theorem buildMain_edges (fuel : Nat) (apIds : Finset String) :
    ∀ (msgs : List Msg) (avail : List (String × ForkData)) (prev : Option String)
      (i : Nat),
      ∀ e ∈ (buildMain fuel apIds avail prev i msgs).2.2,
        e.target ∈ nodeIds (buildMain fuel apIds avail prev i msgs).2.1
        ∧ (some e.source = prev ∨
           e.source ∈ nodeIds (buildMain fuel apIds avail prev i msgs).2.1) := by
  intro msgs
  induction msgs with
  | nil => intro avail prev i e he; simp [buildMain] at he
  | cons message rest ih =>
    intro avail prev i
    simp only [buildMain]
    have hedge : ∀ e ∈ ((match prev with
        | some pid => if pid = "" then []
          else [createEdge pid message.id (decide (message.id ∈ apIds)) 0]
        | none => []) : List ConversationEdge),
        e.target = message.id ∧ some e.source = prev := by
      rcases prev with _ | pid
      · intro e he; cases he
      · intro e he
        by_cases hp : pid = ""
        · simp only [if_pos hp] at he
          cases he
        · simp only [if_neg hp] at he
          rcases List.mem_cons.1 he with h | h
          · subst h
            exact ⟨rfl, rfl⟩
          · cases h
    rcases hnest : lookupFork avail message.id with _ | nfd
    · simp only [hnest]
      intro e he
      simp only [nodeIds_cons, createNode_id]
      rcases List.mem_append.1 he with h | h
      · rcases hedge e h with ⟨ht, hs⟩
        exact ⟨by rw [ht]; exact List.mem_cons_self _ _, Or.inl hs⟩
      · rcases (ih _ _ _) e h with ⟨ht, hs⟩
        refine ⟨List.mem_cons_of_mem _ ht, ?_⟩
        rcases hs with hs | hs
        · exact Or.inr (by rw [Option.some.inj hs]; exact List.mem_cons_self _ _)
        · exact Or.inr (List.mem_cons_of_mem _ hs)
    · by_cases hlen : 1 < nfd.lists.length
      · simp only [hnest, if_pos hlen]
        intro e he
        simp only [nodeIds_cons, nodeIds_append, createNode_id]
        rcases List.mem_append.1 he with h | h
        · rcases List.mem_append.1 h with h' | h'
          · rcases hedge e h' with ⟨ht, hs⟩
            exact ⟨by rw [ht]; exact List.mem_cons_self _ _, Or.inl hs⟩
          · rcases ((procPair_edges fuel).1 _ _ _ _ _ _ _ _) e h' with ⟨ht, hs⟩
            refine ⟨List.mem_cons_of_mem _ (List.mem_append_left _ ht), ?_⟩
            rcases hs with hs | hs
            · exact Or.inr (by rw [hs]; exact List.mem_cons_self _ _)
            · exact Or.inr (List.mem_cons_of_mem _ (List.mem_append_left _ hs))
        · rcases (ih _ _ _) e h with ⟨ht, hs⟩
          refine ⟨List.mem_cons_of_mem _ (List.mem_append_right _ ht), ?_⟩
          rcases hs with hs | hs
          · exact Or.inr (by rw [Option.some.inj hs]; exact List.mem_cons_self _ _)
          · exact Or.inr (List.mem_cons_of_mem _ (List.mem_append_right _ hs))
      · simp only [hnest, if_neg hlen]
        intro e he
        simp only [nodeIds_cons, createNode_id]
        rcases List.mem_append.1 he with h | h
        · rcases hedge e h with ⟨ht, hs⟩
          exact ⟨by rw [ht]; exact List.mem_cons_self _ _, Or.inl hs⟩
        · rcases (ih _ _ _) e h with ⟨ht, hs⟩
          refine ⟨List.mem_cons_of_mem _ ht, ?_⟩
          rcases hs with hs | hs
          · exact Or.inr (by rw [Option.some.inj hs]; exact List.mem_cons_self _ _)
          · exact Or.inr (List.mem_cons_of_mem _ hs)

/-- C10: for sessions with globally unique message ids, the adapter's
output is well-formed: no duplicate node ids, every edge endpoint is the
id of an emitted node, and a non-null root id is the first primary
message's id. -/
theorem C10_adapter_well_formed (s : Session) (hU : UniqueIds s) :
    (nodeIds (sessionToConversationTree s).nodes).Nodup
    ∧ (∀ e ∈ (sessionToConversationTree s).edges,
        e.source ∈ nodeIds (sessionToConversationTree s).nodes ∧
        e.target ∈ nodeIds (sessionToConversationTree s).nodes)
    ∧ (∀ r, (sessionToConversationTree s).rootId = some r →
        (s.messages.head?).map (fun m : Msg => m.id) = some r) := by
  rcases hE : s.messages.isEmpty with _ | _
  case false =>
    rw [sessionToConversationTree_of_ne hE]
    refine ⟨?_, ?_, ?_⟩
    · have hb := buildMain_budget (adapterFuel s) (buildActivePathIds s)
        s.messages (forksOf s) none 0
      have htot : ((msgIds s.messages : Multiset String)
          + (forksBranchIds (forksOf s) : Multiset String)).Nodup := by
        rw [Multiset.coe_add]
        exact Multiset.coe_nodup.2 hU
      exact Multiset.coe_nodup.1
        (Multiset.nodup_of_le (le_trans le_self_add hb) htot)
    · intro e he
      rcases buildMain_edges (adapterFuel s) (buildActivePathIds s) s.messages
        (forksOf s) none 0 e he with ⟨ht, hs⟩
      refine ⟨?_, ht⟩
      rcases hs with h | h
      · cases h
      · exact h
    · intro r hr
      rcases hh : s.messages.head? with _ | m
      · simp only [hh] at hr
        cases hr
      · simp only [hh] at hr
        by_cases hm : m.id = ""
        · rw [if_pos hm] at hr
          cases hr
        · rw [if_neg hm] at hr
          exact hr
  case true =>
    rw [sessionToConversationTree_of_empty hE]
    refine ⟨by simp [nodeIds], ?_, ?_⟩
    · intro e he; cases he
    · intro r hr; cases hr

def exC10 : Session :=
  ⟨[⟨"s", Role.system⟩, ⟨"u1", Role.user⟩, ⟨"a1", Role.assistant⟩],
   some [("u1", ⟨[⟨"l1", [⟨"b1", Role.assistant⟩, ⟨"b2", Role.user⟩]⟩,
                  ⟨"l2", []⟩], 1⟩),
         ("b1", ⟨[⟨"m1", [⟨"n1", Role.assistant⟩]⟩, ⟨"m2", [⟨"n2", Role.user⟩]⟩],
                 0⟩)],
   none⟩

/-- Witness for C10 at a concrete session with a nested fork. -/
theorem C10_adapter_well_formed_witness :
    UniqueIds exC10 ∧
    ((nodeIds (sessionToConversationTree exC10).nodes).Nodup
     ∧ (∀ e ∈ (sessionToConversationTree exC10).edges,
         e.source ∈ nodeIds (sessionToConversationTree exC10).nodes ∧
         e.target ∈ nodeIds (sessionToConversationTree exC10).nodes)
     ∧ (∀ r, (sessionToConversationTree exC10).rootId = some r →
         (exC10.messages.head?).map (fun m : Msg => m.id) = some r)) :=
  ⟨by decide, C10_adapter_well_formed exC10 (by decide)⟩

-- ===== tree layout (C7) =====

/-- The default layout options (`DEFAULT_OPTIONS`); callers of
`applyTreeLayout` pass only `savedPositions`, so these are the values in
effect. -/
def nodeWidth : ℚ := 280

def nodeHeight : ℚ := 120

def horizontalSpacing : ℚ := 80

def verticalSpacing : ℚ := 140

/-- `savedPositions[id]` / `Map.get` on an association list built with
latest-set-first. -/
def lookupPos (m : List (String × (ℚ × ℚ))) (k : String) : Option (ℚ × ℚ) :=
  (m.find? (fun p => p.1 == k)).map (·.2)

def lookupStr (m : List (String × String)) (k : String) : Option String :=
  (m.find? (fun p => p.1 == k)).map (·.2)

/-- `applyFullAutoLayout`: dagre's computed centre coordinates are
abstracted as an oracle (they come from the external dagre library); the
shape is the source's: map over the nodes in order, converting each centre
to a top-left corner, and leave a node untouched when the graph has no
entry for it. -/
def applyFullAutoLayout (oracle : ConversationTree → String → Option (ℚ × ℚ))
    (tree : ConversationTree) : ConversationTree :=
  { tree with nodes := tree.nodes.map (fun node =>
      match oracle tree node.id with
      | some c =>
        { node with position := (c.1 - nodeWidth / 2, c.2 - nodeHeight / 2) }
      | none => node) }

/-- The mixed-mode placement loop of `applyTreeLayout`: each new node is
placed from its parent's known position (with the sibling-offset
arithmetic of the source), or by a single-node dagre run when the parent
is unknown; the running position map is extended as the loop goes
(`Map.set` prepends, `Map.get` takes the latest entry). -/
def placeNew (oracle : ConversationTree → String → Option (ℚ × ℚ))
    (tree : ConversationTree) (parentMap : List (String × String))
    (childrenOf : String → List String) :
    List (String × (ℚ × ℚ)) → List ConversationNode →
      List (String × (ℚ × ℚ)) × List ConversationNode
  | posMap, [] => (posMap, [])
  | posMap, node :: rest =>
    let fallback : ℚ × ℚ :=
      (((applyFullAutoLayout oracle
          { tree with nodes := [node], edges := [] }).nodes.head?).map
        (fun n => n.position)).getD (0, 0)
    let position : ℚ × ℚ :=
      match lookupStr parentMap node.id with
      | some parentId =>
        if parentId = "" then fallback
        else
          match lookupPos posMap parentId with
          | some parentPos =>
            let siblings := childrenOf parentId
            let totalSiblings := siblings.length
            let xOffset : ℚ :=
              if 1 < totalSiblings then
                match (siblings.filter (fun id => id != node.id &&
                    (lookupPos posMap id).isSome)).filterMap
                    (fun id => (lookupPos posMap id).map (·.1)) with
                | [] =>
                  let centerOffset : ℚ := ((totalSiblings : ℚ) - 1) / 2
                  let siblingIndex : ℤ :=
                    ((findIndex (fun id => id == node.id) siblings).map
                      (fun n => (n : ℤ))).getD (-1)
                  ((siblingIndex : ℚ) - centerOffset)
                    * (nodeWidth + horizontalSpacing)
                | x :: xs =>
                  xs.foldl max x - parentPos.1 + nodeWidth + horizontalSpacing
              else 0
            (parentPos.1 + xOffset, parentPos.2 + nodeHeight + verticalSpacing)
          | none => fallback
      | none => fallback
    let r := placeNew oracle tree parentMap childrenOf
      ((node.id, position) :: posMap) rest
    (r.1, { node with position := position } :: r.2)

/-- `applyTreeLayout`: saved positions are reused unchanged; with no new
node the tree is returned with just the saved positions applied; with no
saved position the full dagre layout runs; otherwise the mixed mode places
the new nodes (sorted by depth, stable) from their parents. -/
def applyTreeLayout (oracle : ConversationTree → String → Option (ℚ × ℚ))
    (tree : ConversationTree) (savedPositions : List (String × (ℚ × ℚ))) :
    ConversationTree :=
  if tree.nodes.isEmpty then tree
  else
    let nodesWithSavedPosition := tree.nodes.filterMap (fun n =>
      (lookupPos savedPositions n.id).map (fun p => { n with position := p }))
    let nodesNeedingLayout := tree.nodes.filter (fun n =>
      (lookupPos savedPositions n.id).isNone)
    if nodesNeedingLayout.isEmpty then
      { tree with nodes := nodesWithSavedPosition }
    else if nodesWithSavedPosition.isEmpty then
      applyFullAutoLayout oracle tree
    else
      let nodePositionMap := nodesWithSavedPosition.foldl
        (fun m n => (n.id, n.position) :: m) []
      let parentMap := tree.edges.foldl
        (fun m e => (e.target, e.source) :: m) ([] : List (String × String))
      let childrenOf := fun src =>
        (tree.edges.filter (fun e => e.source == src)).map (fun e => e.target)
      let sortedNewNodes := nodesNeedingLayout.mergeSort
        (fun a b => decide (a.data.depth ≤ b.data.depth))
      let r := placeNew oracle tree parentMap childrenOf nodePositionMap
        sortedNewNodes
      { tree with nodes := nodesWithSavedPosition ++ r.2 }

theorem placeNew_ids (oracle : ConversationTree → String → Option (ℚ × ℚ))
    (tree : ConversationTree) (pm : List (String × String))
    (co : String → List String) :
    ∀ (l : List ConversationNode) (posMap : List (String × (ℚ × ℚ))),
      ((placeNew oracle tree pm co posMap l).2.map
        (fun n : ConversationNode => n.id)) =
        l.map (fun n : ConversationNode => n.id) := by
  intro l
  induction l with
  | nil => intro posMap; rfl
  | cons node rest ih =>
    intro posMap
    simp only [placeNew, List.map_cons]
    rw [ih]

theorem filterMap_saved_ids (sp : List (String × (ℚ × ℚ))) :
    ∀ l : List ConversationNode,
      ((l.filterMap (fun n => (lookupPos sp n.id).map
          (fun p => { n with position := p }))).map
        (fun n : ConversationNode => n.id))
      = (l.filter (fun n => (lookupPos sp n.id).isSome)).map
        (fun n : ConversationNode => n.id) := by
  intro l
  induction l with
  | nil => rfl
  | cons n rest ih =>
    rcases h : lookupPos sp n.id with _ | p <;>
      simp [List.filterMap_cons, List.filter_cons, h, ih]

theorem isNone_filter_congr (sp : List (String × (ℚ × ℚ)))
    (l : List ConversationNode) :
    l.filter (fun n => (lookupPos sp n.id).isNone)
      = l.filter (fun n => !(lookupPos sp n.id).isSome) := by
  apply List.filter_congr
  intro n _
  cases lookupPos sp n.id <;> rfl

/-- The layout permutes the node ids (saved-position nodes first, then the
newly placed ones). -/
theorem applyTreeLayout_ids_perm
    (oracle : ConversationTree → String → Option (ℚ × ℚ))
    (tree : ConversationTree) (sp : List (String × (ℚ × ℚ))) :
    ((applyTreeLayout oracle tree sp).nodes.map
      (fun n : ConversationNode => n.id)).Perm
      (tree.nodes.map (fun n : ConversationNode => n.id)) := by
  simp only [applyTreeLayout]
  by_cases hE : tree.nodes.isEmpty = true
  · rw [if_pos hE]
  · rw [if_neg hE]
    by_cases hNeed :
        (tree.nodes.filter (fun n => (lookupPos sp n.id).isNone)).isEmpty = true
    · rw [if_pos hNeed]
      show ((tree.nodes.filterMap _).map _).Perm _
      rw [filterMap_saved_ids]
      have hall : ∀ n ∈ tree.nodes, (lookupPos sp n.id).isSome := by
        intro n hn
        have hnil := List.isEmpty_iff.1 hNeed
        by_cases hs : (lookupPos sp n.id).isSome = true
        · exact hs
        · exfalso
          have hnone : (lookupPos sp n.id).isNone = true := by
            cases hls : lookupPos sp n.id
            · rfl
            · rw [hls] at hs
              exact absurd rfl hs
          have : n ∈ tree.nodes.filter (fun n => (lookupPos sp n.id).isNone) :=
            List.mem_filter.2 ⟨hn, hnone⟩
          rw [hnil] at this
          cases this
      rw [List.filter_eq_self.2 hall]
    · rw [if_neg hNeed]
      by_cases hSaved :
          (tree.nodes.filterMap (fun n => (lookupPos sp n.id).map
            (fun p => { n with position := p }))).isEmpty = true
      · rw [if_pos hSaved]
        show ((tree.nodes.map _).map _).Perm _
        rw [List.map_map]
        apply List.Perm.of_eq
        apply List.map_congr_left
        intro n _
        simp only [Function.comp_apply]
        rcases h : oracle tree n.id with _ | c <;> simp [h]
      · rw [if_neg hSaved]
        show (((tree.nodes.filterMap _) ++ _).map _).Perm _
        rw [List.map_append, filterMap_saved_ids, placeNew_ids]
        have hms := (List.mergeSort_perm
          (tree.nodes.filter (fun n => (lookupPos sp n.id).isNone))
          (fun a b => decide (a.data.depth ≤ b.data.depth))).map
          (fun n : ConversationNode => n.id)
        refine ((List.Perm.append_left _ hms).trans ?_)
        rw [isNone_filter_congr]
        have := (List.filter_append_perm
          (fun n : ConversationNode => (lookupPos sp n.id).isSome)
          tree.nodes).map (fun n : ConversationNode => n.id)
        rw [List.map_append] at this
        exact this

theorem lookupPos_map_self {l : List ConversationNode} {n : ConversationNode}
    (h : n ∈ l) :
    (lookupPos (l.map (fun x : ConversationNode => (x.id, x.position)))
      n.id).isSome = true := by
  unfold lookupPos
  rcases hf : (l.map fun x => (x.id, x.position)).find? (fun p => p.1 == n.id)
    with _ | q
  · exfalso
    have := List.find?_eq_none.1 hf (n.id, n.position)
      (List.mem_map.2 ⟨n, h, rfl⟩)
    simp at this
  · rw [hf]
    rfl

theorem lookupPos_map_self_eq :
    ∀ {l : List ConversationNode} {n : ConversationNode},
      (l.map (fun x : ConversationNode => x.id)).Nodup → n ∈ l →
      lookupPos (l.map (fun x : ConversationNode => (x.id, x.position))) n.id
        = some n.position := by
  intro l
  induction l with
  | nil => intro n _ h; cases h
  | cons a rest ih =>
    intro n hN hmem
    have hN' : (a.id :: rest.map (fun x : ConversationNode => x.id)).Nodup := by
      simpa using hN
    rcases List.mem_cons.1 hmem with rfl | hm
    · unfold lookupPos
      rw [List.map_cons,
        List.find?_cons_of_pos (p := fun q : String × (ℚ × ℚ) => q.1 == n.id) _
          (by simp)]
      rfl
    · have hneq : a.id ≠ n.id := by
        intro he
        exact (List.nodup_cons.1 hN').1
          (by rw [he]; exact List.mem_map.2 ⟨n, hm, rfl⟩)
      unfold lookupPos
      rw [List.map_cons,
        List.find?_cons_of_neg (p := fun q : String × (ℚ × ℚ) => q.1 == n.id) _
          (by simp [hneq])]
      exact ih (by simpa using (List.nodup_cons.1 hN').2) hm

theorem filterMap_of_all_some {α : Type} {f : α → Option α} :
    ∀ {l : List α}, (∀ a ∈ l, f a = some a) → l.filterMap f = l := by
  intro l
  induction l with
  | nil => intro _; rfl
  | cons a rest ih =>
    intro h
    simp only [List.filterMap_cons, h a (List.mem_cons_self a rest),
      ih (fun x hx => h x (List.mem_cons_of_mem a hx))]

/-- C7: saved positions are reused exactly — any output node whose id has
a saved position carries exactly that position — and a second run fed the
first run's output positions (with no structural change) returns the
first run's tree unchanged: incremental layout is drift-free. -/
theorem C7_applyTreeLayout_drift_free
    (oracle : ConversationTree → String → Option (ℚ × ℚ))
    (tree : ConversationTree) (sp : List (String × (ℚ × ℚ))) :
    (∀ n ∈ (applyTreeLayout oracle tree sp).nodes, ∀ p : ℚ × ℚ,
      lookupPos sp n.id = some p → n.position = p)
    ∧ ((tree.nodes.map (fun n : ConversationNode => n.id)).Nodup →
      applyTreeLayout oracle (applyTreeLayout oracle tree sp)
        ((applyTreeLayout oracle tree sp).nodes.map (fun n => (n.id, n.position)))
      = applyTreeLayout oracle tree sp) := by
  constructor
  · simp only [applyTreeLayout]
    by_cases hE : tree.nodes.isEmpty = true
    · rw [if_pos hE]
      intro n hn
      rw [List.isEmpty_iff.1 hE] at hn
      cases hn
    · rw [if_neg hE]
      by_cases hNeed :
          (tree.nodes.filter (fun n => (lookupPos sp n.id).isNone)).isEmpty = true
      · rw [if_pos hNeed]
        intro n hn p hp
        rcases List.mem_filterMap.1 hn with ⟨n₀, hn₀, hfn⟩
        rcases hl : lookupPos sp n₀.id with _ | p₀
        · rw [hl] at hfn
          cases hfn
        · rw [hl] at hfn
          have hn' : n = { n₀ with position := p₀ } :=
            (Option.some.inj hfn).symm
          have hid : n.id = n₀.id := by rw [hn']
          rw [hid, hl] at hp
          rw [hn']
          exact Option.some.inj hp
      · rw [if_neg hNeed]
        by_cases hSaved :
            (tree.nodes.filterMap (fun n => (lookupPos sp n.id).map
              (fun p => { n with position := p }))).isEmpty = true
        · rw [if_pos hSaved]
          intro n hn p hp
          exfalso
          rcases List.mem_map.1 hn with ⟨n₀, hn₀, hFn⟩
          have hid : n.id = n₀.id := by
            rw [← hFn]
            rcases oracle tree n₀.id with _ | c <;> rfl
          have hnone := List.filterMap_eq_nil_iff.1 (List.isEmpty_iff.1 hSaved) n₀ hn₀
          rcases hl : lookupPos sp n₀.id with _ | p₀
          · rw [hid, hl] at hp
            cases hp
          · rw [hl] at hnone
            cases hnone
        · rw [if_neg hSaved]
          intro n hn p hp
          rcases List.mem_append.1 hn with h | h
          · rcases List.mem_filterMap.1 h with ⟨n₀, hn₀, hfn⟩
            rcases hl : lookupPos sp n₀.id with _ | p₀
            · rw [hl] at hfn
              cases hfn
            · rw [hl] at hfn
              have hn' : n = { n₀ with position := p₀ } :=
                (Option.some.inj hfn).symm
              have hid : n.id = n₀.id := by rw [hn']
              rw [hid, hl] at hp
              rw [hn']
              exact Option.some.inj hp
          · exfalso
            have hmem : n.id ∈ ((tree.nodes.filter
                (fun n => (lookupPos sp n.id).isNone)).mergeSort
                  (fun a b => decide (a.data.depth ≤ b.data.depth))).map
                (fun n : ConversationNode => n.id) := by
              rw [← placeNew_ids oracle tree
                (tree.edges.foldl (fun m e => (e.target, e.source) :: m)
                  ([] : List (String × String)))
                (fun src => (tree.edges.filter (fun e => e.source == src)).map
                  (fun e => e.target))]
              exact List.mem_map.2 ⟨n, h, rfl⟩
            have hperm := (List.mergeSort_perm
              (tree.nodes.filter (fun n => (lookupPos sp n.id).isNone))
              (fun a b => decide (a.data.depth ≤ b.data.depth))).map
              (fun n : ConversationNode => n.id)
            rcases List.mem_map.1 (hperm.mem_iff.1 hmem) with ⟨n₀, hn₀, hid⟩
            have hnone := (List.mem_filter.1 hn₀).2
            rw [← hid] at hp
            rw [hp] at hnone
            cases hnone
  · intro hN
    have hN1 : ((applyTreeLayout oracle tree sp).nodes.map
        (fun n : ConversationNode => n.id)).Nodup :=
      (applyTreeLayout_ids_perm oracle tree sp).nodup_iff.2 hN
    revert hN1
    generalize applyTreeLayout oracle tree sp = t1
    intro hN1
    simp only [applyTreeLayout]
    by_cases hE1 : t1.nodes.isEmpty = true
    · rw [if_pos hE1]
    · rw [if_neg hE1]
      have hNeed1 : (t1.nodes.filter
          (fun n => (lookupPos (t1.nodes.map
            (fun n => (n.id, n.position))) n.id).isNone)).isEmpty = true := by
        apply List.isEmpty_iff.2
        apply List.filter_eq_nil.2
        intro n hn
        have hS := lookupPos_map_self hn
        rcases hls : lookupPos (t1.nodes.map (fun n => (n.id, n.position))) n.id
          with _ | q
        · rw [hls] at hS
          cases hS
        · rw [hls]
          simp
      rw [if_pos hNeed1]
      have hfm : t1.nodes.filterMap
          (fun n => (lookupPos (t1.nodes.map
            (fun n => (n.id, n.position))) n.id).map
            (fun p => { n with position := p }))
          = t1.nodes := by
        apply filterMap_of_all_some
        intro n hn
        rw [lookupPos_map_self_eq hN1 hn]
        rfl
      rw [hfm]

def exOracle : ConversationTree → String → Option (ℚ × ℚ) := fun _ _ => none

def exC7tree : ConversationTree :=
  ⟨[⟨"n1", "user", ((0 : ℚ), (0 : ℚ)),
     ⟨⟨"n1", Role.user⟩, "user", true, 0, 1, true, 1, 0⟩⟩,
    ⟨"n2", "assistant", ((0 : ℚ), (0 : ℚ)),
     ⟨⟨"n2", Role.assistant⟩, "assistant", true, 0, 1, false, 0, 1⟩⟩],
   [⟨"n1->n2", "n1", "n2", "activePath", ⟨true, 0⟩, false⟩],
   some "n1", some "n2", {"n1", "n2"}⟩

def exC7sp : List (String × (ℚ × ℚ)) := [("n1", ((3 : ℚ), (4 : ℚ)))]

/-- Witness for C7 at a concrete mixed-mode layout run (one saved node,
one new node). -/
theorem C7_applyTreeLayout_drift_free_witness :
    ((exC7tree.nodes.map (fun n : ConversationNode => n.id)).Nodup) ∧
    ((∀ n ∈ (applyTreeLayout exOracle exC7tree exC7sp).nodes, ∀ p : ℚ × ℚ,
       lookupPos exC7sp n.id = some p → n.position = p)
     ∧ applyTreeLayout exOracle (applyTreeLayout exOracle exC7tree exC7sp)
         ((applyTreeLayout exOracle exC7tree exC7sp).nodes.map
           (fun n => (n.id, n.position)))
       = applyTreeLayout exOracle exC7tree exC7sp) :=
  ⟨by decide,
   (C7_applyTreeLayout_drift_free exOracle exC7tree exC7sp).1,
   (C7_applyTreeLayout_drift_free exOracle exC7tree exC7sp).2 (by decide)⟩
